import Mathlib

/-!
Enigma alphabet and reflector.

A shallow embedding of `alphabet.go` and `reflector.go`.

* A Go `string` is a sequence of bytes: `List Byte`.
* A Go `int` is a 64-bit two's complement integer: an `Int` with every
  arithmetic result passed through `wrapInt64`.
* A Go `map[K]int` is a function `K → Option Int`; reading a missing key with
  the one-result index expression gives `0`.
* A function that may `panic` returns `Except`.
* A method with a pointer receiver that returns `error` takes the state and
  returns the state after the call together with `Option ReflectorError`.
-/

namespace Enigma

/-! ## Go values -/

/-- One byte of a Go string. -/
abbrev Byte := Fin 256

/-- The bytes of an ASCII string literal. -/
def ascii (s : String) : List Byte :=
  s.toList.map (fun c => Fin.ofNat c.toNat)

/-- Two's complement wrap-around of a 64-bit Go `int`. -/
def wrapInt64 (x : Int) : Int :=
  (x + 9223372036854775808) % 18446744073709551616 - 9223372036854775808

/-- The Go `int` range. -/
def inInt64 (x : Int) : Prop :=
  -9223372036854775808 ≤ x ∧ x ≤ 9223372036854775807

instance (x : Int) : Decidable (inInt64 x) := by
  unfold inInt64; infer_instance

/-- A Go `map[int]int`. -/
abbrev IntMap := Int → Option Int

/-- A Go `map[byte]int`. -/
abbrev ByteMap := Byte → Option Int

/-- The result of `make(map[int]int)`. -/
def IntMap.empty : IntMap := fun _ => none

/-- The assignment `m[k] = v`. -/
def IntMap.set (m : IntMap) (k v : Int) : IntMap :=
  fun x => if x = k then some v else m x

/-- The index expression `m[k]`: the zero value when the key is missing. -/
def IntMap.get (m : IntMap) (k : Int) : Int :=
  (m k).getD 0

/-- The result of `make(map[byte]int)`. -/
def ByteMap.empty : ByteMap := fun _ => none

/-- The assignment `m[k] = v`. -/
def ByteMap.set (m : ByteMap) (k : Byte) (v : Int) : ByteMap :=
  fun x => if x = k then some v else m x

/-- The conversion `byte(r)` of a rune: the low eight bits. -/
def runeToByte (r : Int) : Byte :=
  Fin.ofNat (r % 256).toNat

/-! ## UTF-8, as Go reads and writes strings -/

/-- The rune U+FFFD that stands for invalid UTF-8. -/
def runeError : Int := 65533

/-- Is `b` a continuation byte between `lo` and `hi`? -/
def inRange (lo hi : Nat) (b : Byte) : Bool :=
  decide (lo ≤ b.val) && decide (b.val ≤ hi)

/-- The first rune of a string and its width in bytes, as Go decodes UTF-8:
invalid or short input gives `runeError` of width 1. -/
def decodeRune : List Byte → Int × Nat
  | [] => (runeError, 0)
  | s0 :: rest =>
    if s0.val < 128 then ((s0.val : Int), 1)
    else if s0.val < 194 ∨ 244 < s0.val then (runeError, 1)
    else if s0.val < 224 then
      match rest with
      | s1 :: _ =>
        if inRange 128 191 s1 then
          (((s0.val % 32 * 64 + s1.val % 64 : Nat) : Int), 2)
        else (runeError, 1)
      | [] => (runeError, 1)
    else if s0.val < 240 then
      match rest with
      | s1 :: s2 :: _ =>
        if inRange (if s0.val = 224 then 160 else 128)
            (if s0.val = 237 then 159 else 191) s1 && inRange 128 191 s2 then
          (((s0.val % 16 * 4096 + s1.val % 64 * 64 + s2.val % 64 : Nat) : Int), 3)
        else (runeError, 1)
      | _ => (runeError, 1)
    else
      match rest with
      | s1 :: s2 :: s3 :: _ =>
        if inRange (if s0.val = 240 then 144 else 128)
            (if s0.val = 244 then 143 else 191) s1 && inRange 128 191 s2
            && inRange 128 191 s3 then
          (((s0.val % 8 * 262144 + s1.val % 64 * 4096 + s2.val % 64 * 64
            + s3.val % 64 : Nat) : Int), 4)
        else (runeError, 1)
      | _ => (runeError, 1)

/-- The loop `for i, letter := range s`: the pairs (byte offset, rune).
`offset` is the offset of the head of the list, `skip` the number of bytes
still belonging to the rune decoded last. -/
def rangeFrom : Nat → Nat → List Byte → List (Int × Int)
  | _, _, [] => []
  | offset, skip + 1, _ :: rest => rangeFrom (offset + 1) skip rest
  | offset, 0, b :: rest =>
    ((offset : Int), (decodeRune (b :: rest)).1)
      :: rangeFrom (offset + 1) ((decodeRune (b :: rest)).2 - 1) rest

/-- The pairs (byte offset, rune) of `for i, letter := range s`. -/
def rangeString (s : List Byte) : List (Int × Int) :=
  rangeFrom 0 0 s

/-- The conversion `[]rune(s)`. -/
def toRunes (s : List Byte) : List Int :=
  (rangeString s).map Prod.snd

/-- The UTF-8 encoding of one rune; a rune that is no Unicode scalar value is
written as U+FFFD. -/
def encodeRune (r : Int) : List Byte :=
  if r < 0 ∨ 1114111 < r ∨ (55296 ≤ r ∧ r ≤ 57343) then [239, 191, 189]
  else if r < 128 then [Fin.ofNat r.toNat]
  else if r < 2048 then
    [Fin.ofNat (192 + r.toNat / 64), Fin.ofNat (128 + r.toNat % 64)]
  else if r < 65536 then
    [Fin.ofNat (224 + r.toNat / 4096), Fin.ofNat (128 + r.toNat / 64 % 64),
      Fin.ofNat (128 + r.toNat % 64)]
  else
    [Fin.ofNat (240 + r.toNat / 262144), Fin.ofNat (128 + r.toNat / 4096 % 64),
      Fin.ofNat (128 + r.toNat / 64 % 64), Fin.ofNat (128 + r.toNat % 64)]

/-- The conversion `string(r)` of a `[]rune`. -/
def fromRunes (rs : List Int) : List Byte :=
  rs.flatMap encodeRune

/-! ## alphabet.go -/

/-- The struct `alphabet`. -/
structure alphabet where
  letterMap : List Byte
  indexMap : ByteMap

/-- The function `newAlphabet`. -/
def newAlphabet (alphabetString : List Byte) : alphabet :=
  { letterMap := alphabetString
    indexMap := (rangeString alphabetString).foldl
      (fun indexMap il => indexMap.set (runeToByte il.2) il.1) ByteMap.empty }

/-- The package variable `Alphabet`. -/
def Alphabet : alphabet := newAlphabet (ascii "ABCDEFGHIJKLMNOPQRSTUVWXYZ")

/-- The method `charToInt`: the value and the comma-ok flag of the lookup. -/
def alphabet.charToInt (a : alphabet) (letter : Byte) : Int × Bool :=
  ((a.indexMap letter).getD 0, (a.indexMap letter).isSome)

/-- The method `intToChar`; indexing out of range panics. -/
def alphabet.intToChar (a : alphabet) (index : Int) : Option Byte :=
  if index < 0 then none else a.letterMap[index.toNat]?

/-- The method `getSize`. -/
def alphabet.getSize (a : alphabet) : Int :=
  (a.letterMap.length : Int)

/-- The function `sort.Sort` on `sortRunes`: the runes in ascending order.
Runes are totally ordered by `<`, so every correct sort gives this list. -/
def sortRunes (r : List Int) : List Int :=
  r.insertionSort (fun a b => a ≤ b)

/-- The function `sortString`. -/
def sortString (s : List Byte) : List Byte :=
  fromRunes (sortRunes (toRunes s))

/-- The method `isValidWiring`. -/
def alphabet.isValidWiring (_a : alphabet) (wiring : List Byte) : Bool :=
  decide (sortString wiring = sortString Alphabet.letterMap)

/-- The function `shift`. Go's `%` truncates towards zero (`Int.tmod`). -/
def shift (input shiftBy : Int) : Int :=
  let result := Int.tmod (wrapInt64 (input + shiftBy)) Alphabet.getSize
  if result < 0 then wrapInt64 (Alphabet.getSize + result) else result

/-- The loop of `getDefaultLetterMap`: `for ; i < size; i++`, at most `fuel`
iterations. -/
def defaultLetterMapLoop : Nat → Int → IntMap → IntMap
  | 0, _, letterMap => letterMap
  | fuel + 1, i, letterMap =>
    if i < Alphabet.getSize then
      defaultLetterMapLoop fuel (wrapInt64 (i + 1)) (letterMap.set i i)
    else letterMap

/-- The function `getDefaultLetterMap`. The loop runs `getSize` times. -/
def getDefaultLetterMap : IntMap :=
  defaultLetterMapLoop Alphabet.getSize.toNat 0 IntMap.empty

/-! ## reflector.go -/

/-- Modelled from the spec: the type `ReflectorModel` and its methods
`getWiring`, `IsMovable` and `IsRewirable` are declared outside the files at
hand. Per model the spec lists a canonical fixed wiring string, a flag
`isMovable` and a flag `isRewirable`; `name` is the string value of the model,
which the code only prints. -/
structure ReflectorModel where
  name : List Byte
  wiring : List Byte
  movable : Bool
  rewirable : Bool
  deriving DecidableEq

/-- Modelled from the spec: the canonical fixed wiring string of the model. -/
def ReflectorModel.getWiring (m : ReflectorModel) : List Byte := m.wiring

/-- Modelled from the spec: the flag `isMovable` of the model. -/
def ReflectorModel.IsMovable (m : ReflectorModel) : Bool := m.movable

/-- Modelled from the spec: the flag `isRewirable` of the model. -/
def ReflectorModel.IsRewirable (m : ReflectorModel) : Bool := m.rewirable

/-- The struct `reflector`. -/
structure reflector where
  model : ReflectorModel
  letterMap : IntMap
  wheelPosition : Int

/-- The values passed to `panic` in `newReflector`. -/
inductive ReflectorPanic where
  /-- Message "invalid reflector wiring %s" -/
  | invalidWiring (wiring : List Byte)
  /-- Message "unsupported wiring letter %s" -/
  | unsupportedWiringLetter (letter : Int)
  deriving DecidableEq

/-- The errors returned by `setWheelPosition` and `setWiring`, one constructor
per `fmt.Errorf` call, with the arguments of the format string. -/
inductive ReflectorError where
  /-- Message "reflector %s is fixed, cannot change position" -/
  | fixedReflector (model : ReflectorModel)
  /-- Message "unsupported reflector position %s" -/
  | unsupportedPosition (letter : Byte)
  /-- Message "reflector %s is not rewirable, cannot change wiring" -/
  | notRewirable (model : ReflectorModel)
  /-- Message "incomplete wiring of the reflector, must include %d distinct pairs to
  cover the whole alphabet" -/
  | incompleteWiring (expectedSize : Int)
  /-- Message "invalid pair %s, must be a pair of letters" -/
  | notAPair (pair : List Byte)
  /-- Message "invalid pair %s, cannot connect reflector letter to itself" -/
  | selfPair (pair : List Byte)
  /-- Message "invalid pair %s, unsupported letter %s" -/
  | unsupportedLetter (pair : List Byte) (letter : Byte)
  /-- Message "invalid pair %s, letters Y and J are hard-wired in UKW-D reflectors and
  cannot be changed" -/
  | hardWired (pair : List Byte)
  /-- Message "invalid pair %s, letter %s already wired" -/
  | alreadyWired (pair : List Byte) (letter : Byte)
  deriving DecidableEq

/-- The loop `for i, letter := range wiring` of `newReflector`. -/
def newReflectorLoop : List (Int × Int) → IntMap → Except ReflectorPanic IntMap
  | [], letterMap => .ok letterMap
  | (i, letter) :: rest, letterMap =>
    if (Alphabet.charToInt (runeToByte letter)).2 = false then
      .error (.unsupportedWiringLetter letter)
    else
      newReflectorLoop rest
        ((letterMap.set i (Alphabet.charToInt (runeToByte letter)).1).set
          (Alphabet.charToInt (runeToByte letter)).1 i)

/-- The function `newReflector`. -/
def newReflector (model : ReflectorModel) : Except ReflectorPanic reflector :=
  if Alphabet.isValidWiring model.getWiring = false then
    .error (.invalidWiring model.getWiring)
  else
    match newReflectorLoop (rangeString model.getWiring) IntMap.empty with
    | .error e => .error e
    | .ok letterMap => .ok { model := model, letterMap := letterMap, wheelPosition := 0 }

/-- The method `setWheelPosition`: the state after the call and the error. -/
def reflector.setWheelPosition (r : reflector) (letter : Byte) :
    reflector × Option ReflectorError :=
  if r.model.IsMovable = false then
    (r, some (.fixedReflector r.model))
  else if (Alphabet.charToInt letter).2 = false then
    (r, some (.unsupportedPosition letter))
  else
    ({ r with wheelPosition := (Alphabet.charToInt letter).1 }, none)

/-- The function `strings.IndexByte`: the index of the first `c`, or `-1`. -/
def stringsIndexByte : List Byte → Byte → Int
  | [], _ => -1
  | b :: rest, c =>
    if b = c then 0
    else if stringsIndexByte rest c = -1 then -1
    else stringsIndexByte rest c + 1

/-- The function `strings.Split` with a separator of one byte: the pieces
between the separators, one more than there are separators. -/
def stringsSplit (s : List Byte) (sep : Byte) : List (List Byte) :=
  match s with
  | [] => [[]]
  | b :: rest =>
    if b = sep then [] :: stringsSplit rest sep
    else
      match stringsSplit rest sep with
      | [] => [[b]]
      | piece :: pieces => (b :: piece) :: pieces

/-- The local `ukwdOrder` of `setWiring`. -/
def ukwdOrder : List Byte := ascii "AJZXWVUTSRQPONYMLKIHGFEDCB"

/-- One round of the loop `for i := 0; i < 2; i++` of `setWiring` on the
letter `pair[i]`: the value stored in `letters[i]`, or the error returned. -/
def wireLetter (wiringMap : IntMap) (pair : List Byte) (letter : Byte) :
    Except ReflectorError Int :=
  if stringsIndexByte ukwdOrder letter = -1 then
    .error (.unsupportedLetter pair letter)
  else
    match wiringMap (stringsIndexByte ukwdOrder letter) with
    | some mapped =>
      if mapped ≠ stringsIndexByte ukwdOrder letter then
        if letter = 89 ∨ letter = 74 then .error (.hardWired pair)
        else .error (.alreadyWired pair letter)
      else .ok (stringsIndexByte ukwdOrder letter)
    | none => .ok (stringsIndexByte ukwdOrder letter)

/-- The body of the loop `for _, pair := range pairs` of `setWiring`. -/
def wirePair (wiringMap : IntMap) (pair : List Byte) : Except ReflectorError IntMap :=
  match pair with
  | [p0, p1] =>
    if p0 = p1 then .error (.selfPair pair)
    else
      match wireLetter wiringMap pair p0 with
      | .error e => .error e
      | .ok l0 =>
        match wireLetter wiringMap pair p1 with
        | .error e => .error e
        | .ok l1 => .ok ((wiringMap.set l0 l1).set l1 l0)
  | _ => .error (.notAPair pair)

/-- The loop `for _, pair := range pairs` of `setWiring`. -/
def wirePairs : IntMap → List (List Byte) → Except ReflectorError IntMap
  | wiringMap, [] => .ok wiringMap
  | wiringMap, pair :: rest =>
    match wirePair wiringMap pair with
    | .error e => .error e
    | .ok wiringMap1 => wirePairs wiringMap1 rest

/-- The map `wiringMap` of `setWiring` before the pairs are read: the default
map with the positions of J and Y wired to each other. -/
def hardWiredMap : IntMap :=
  (getDefaultLetterMap.set (stringsIndexByte ukwdOrder 74)
      (stringsIndexByte ukwdOrder 89)).set
    (stringsIndexByte ukwdOrder 89) (stringsIndexByte ukwdOrder 74)

/-- The method `setWiring`: the state after the call and the error. -/
def reflector.setWiring (r : reflector) (wiring : List Byte) :
    reflector × Option ReflectorError :=
  if r.model.IsRewirable = false then
    (r, some (.notRewirable r.model))
  else if ((stringsSplit wiring 32).length : Int)
      ≠ wrapInt64 (Int.tdiv Alphabet.getSize 2 - 1) then
    (r, some (.incompleteWiring (wrapInt64 (Int.tdiv Alphabet.getSize 2 - 1))))
  else
    match wirePairs hardWiredMap (stringsSplit wiring 32) with
    | .error e => (r, some e)
    | .ok wiringMap => ({ r with letterMap := wiringMap }, none)

/-- The method `translate`. -/
def reflector.translate (r : reflector) (input : Int) : Int :=
  shift (r.letterMap.get (shift input r.wheelPosition)) (wrapInt64 (-r.wheelPosition))

/-! ## Notions used to state the properties -/

/-- The substitution read off a wiring string: `i ↦ charToInt(w[i])`. -/
def wiringSubst (w : List Byte) (i : Int) : Int :=
  (Alphabet.charToInt (w.getD i.toNat 0)).1

/-! ## Example inputs -/

/-- A fixed model wired like the historical reflector B: thirteen swapped
pairs. -/
def fixedModel : ReflectorModel :=
  { name := ascii "B"
    wiring := ascii "YRUHQSLDPXNGOKMIEBFZCWVJAT"
    movable := false
    rewirable := false }

/-- A movable and rewirable model with the same initial wiring. -/
def rewirableModel : ReflectorModel :=
  { name := ascii "D"
    wiring := ascii "YRUHQSLDPXNGOKMIEBFZCWVJAT"
    movable := true
    rewirable := true }

/-- A model whose wiring string is the alphabet rotated by one letter: a
rearrangement of the alphabet that is no involution. -/
def rotatedModel : ReflectorModel :=
  { name := ascii "R"
    wiring := ascii "BCDEFGHIJKLMNOPQRSTUVWXYZA"
    movable := false
    rewirable := false }

/-- A reflector state whose letter map swaps `k` and `25 - k`, turned by
three steps. -/
def mirrorReflector : reflector :=
  { model := rewirableModel
    letterMap := fun k => if 0 ≤ k ∧ k < 26 then some (25 - k) else none
    wheelPosition := 3 }

/-- The same letter map in a reflector of the fixed model, not turned. -/
def fixedMirror : reflector :=
  { model := fixedModel
    letterMap := fun k => if 0 ≤ k ∧ k < 26 then some (25 - k) else none
    wheelPosition := 0 }

/-- The function `strings.Join` with a separator of one byte. -/
def stringsJoin (sep : Byte) : List (List Byte) → List Byte
  | [] => []
  | [piece] => piece
  | piece :: rest => piece ++ sep :: stringsJoin sep rest

/-- A configuration call on a reflector, with its argument. -/
inductive ReflectorCall where
  | setWheelPosition (letter : Byte)
  | setWiring (wiring : List Byte)

/-- The state after one configuration call; the error, if any, is dropped. -/
def reflector.call (r : reflector) : ReflectorCall → reflector
  | .setWheelPosition letter => (r.setWheelPosition letter).1
  | .setWiring wiring => (r.setWiring wiring).1

/-- The state after a sequence of configuration calls. -/
def reflector.run (r : reflector) (calls : List ReflectorCall) : reflector :=
  calls.foldl reflector.call r

/-- A wiring specification written as a first token followed by pairs of a
separator and a token. -/
def wiringSpec (first : List Byte) (rest : List (List Byte × List Byte)) : List Byte :=
  first ++ rest.flatMap (fun p => p.1 ++ p.2)

/-! ## Text processing of alphabet.go -/

/-- The function `strings.HasPrefix`, pattern first: does `s` start with
`old`? -/
def startsWith : List Byte → List Byte → Bool
  | [], _ => true
  | _ :: _, [] => false
  | a :: old, c :: s => decide (a = c) && startsWith old s

/-- The function `strings.ReplaceAll` for an empty `old`: `new` is written
before every UTF-8 sequence and at the end. `skip` counts the bytes still
belonging to the sequence begun last. -/
def insertAtRunes (new : List Byte) : Nat → List Byte → List Byte
  | _, [] => new
  | skip + 1, c :: rest => c :: insertAtRunes new skip rest
  | 0, c :: rest => new ++ c :: insertAtRunes new ((decodeRune (c :: rest)).2 - 1) rest

/-- The scan of `strings.ReplaceAll` for a non-empty `old`: from left to
right, at each match `new` is written and the match is passed over, so matches
do not overlap. `skip` counts the bytes of the last match still to pass. -/
def replaceFrom (old new : List Byte) : Nat → List Byte → List Byte
  | _, [] => []
  | skip + 1, _ :: rest => replaceFrom old new skip rest
  | 0, c :: rest =>
    if startsWith old (c :: rest) then new ++ replaceFrom old new (old.length - 1) rest
    else c :: replaceFrom old new 0 rest

/-- The function `strings.ReplaceAll`. -/
def stringsReplaceAll (s old new : List Byte) : List Byte :=
  if old = [] then insertAtRunes new 0 s else replaceFrom old new 0 s

/-- The function `strings.ToUpper`. A string of ASCII bytes has its letters
'a'..'z' moved to 'A'..'Z'; any other string is mapped rune by rune with
`unicode.ToUpper`, a rune mapped to a negative value being dropped. The case
table `unicode.ToUpper` of the Go library is the parameter `unicodeToUpper`. -/
def stringsToUpper (unicodeToUpper : Int → Int) (s : List Byte) : List Byte :=
  if s.all (fun c => decide (c.val < 128)) then
    s.map (fun c => if 97 ≤ c.val ∧ c.val ≤ 122 then Fin.ofNat (c.val - 32) else c)
  else
    fromRunes (((toRunes s).map unicodeToUpper).filter (fun r => decide (0 ≤ r)))

/-- The package variable `substitutions`: the pairs `from`, `to`. -/
def substitutions : List (List Byte × List Byte) :=
  [ (ascii "Q ", ascii "QW "),
    (ascii " Q", ascii " WQ"),
    (ascii " ", ascii "QQ"),
    (ascii "X,", ascii "XW,"),
    (ascii ",X", ascii ",WX"),
    (ascii ",", ascii "XX"),
    (ascii "V.", ascii "VW."),
    (ascii ".V", ascii ".WV"),
    (ascii ".", ascii "VV"),
    (ascii "Y-", ascii "YQ-"),
    (ascii "-Y", ascii "-QY"),
    (ascii "-", ascii "YY") ]

/-- The function `Preprocess`. -/
def Preprocess (unicodeToUpper : Int → Int) (text : List Byte) : List Byte :=
  substitutions.foldl (fun text sub => stringsReplaceAll text sub.1 sub.2)
    (stringsToUpper unicodeToUpper text)

/-- The function `Postprocess`: the loop runs over `substitutions` from the
last entry to the first. -/
def Postprocess (text : List Byte) : List Byte :=
  substitutions.reverse.foldl (fun text sub => stringsReplaceAll text sub.2 sub.1) text

/-- Does `pat` occur in `s` as a run of consecutive bytes? -/
def occurs (pat : List Byte) : List Byte → Bool
  | [] => startsWith pat []
  | c :: s => startsWith pat (c :: s) || occurs pat s

/-- The string `s` with `w` put between every `a` directly followed by `b`. -/
def insertBetween (a w b : Byte) : List Byte → List Byte
  | [] => []
  | [c] => [c]
  | c :: d :: rest =>
    if c = a ∧ d = b then c :: w :: insertBetween a w b (d :: rest)
    else c :: insertBetween a w b (d :: rest)

/-- The string `s` with every `c` replaced by `d`, `d`. -/
def doubleFor (c d : Byte) : List Byte → List Byte
  | [] => []
  | x :: rest => if x = c then d :: d :: doubleFor c d rest else x :: doubleFor c d rest

/-- A pattern of two or three bytes that cannot lie across a `w` put between
`a` and `b`: such a `w` has `a` before it and `b` after it. -/
def insertSafe (a w b : Byte) : List Byte → Bool
  | [x, y] =>
    !(decide (x = a) && decide (y = w)) && !(decide (x = w) && decide (y = b))
  | [x, y, z] =>
    !(decide (x = w) && decide (y = b))
      && !(decide (x = a) && decide (y = w) && decide (z = b))
      && !(decide (y = a) && decide (z = w))
  | _ => false

/-- A pattern of two or three bytes that cannot lie across a doubled `d`: its
first and last bytes are not `d`. -/
def doubleSafe (d : Byte) : List Byte → Bool
  | [x, y] => !decide (x = d) && !decide (y = d)
  | [x, _, z] => !decide (x = d) && !decide (z = d)
  | _ => false

/-- The two shapes of the entries of `substitutions`: `ab` becomes `awb`, or
`c` becomes `dd`. -/
inductive Rule where
  | insert (a w b : Byte)
  | double (c d : Byte)

/-- The entry of `substitutions` a rule stands for: `from` and `to`. -/
def Rule.sub : Rule → List Byte × List Byte
  | .insert a w b => ([a, b], [a, w, b])
  | .double c d => ([c], [d, d])

/-- The bytes of a rule differ from one another. -/
def Rule.ok : Rule → Bool
  | .insert a w b => !decide (a = b) && !decide (w = a) && !decide (w = b)
  | .double c d => !decide (c = d)

/-- What `Preprocess` does with a rule. -/
def Rule.forth : Rule → List Byte → List Byte
  | .insert a w b => insertBetween a w b
  | .double c d => doubleFor c d

/-- What `Postprocess` does with a rule. -/
def Rule.back (r : Rule) (s : List Byte) : List Byte :=
  stringsReplaceAll s r.sub.2 r.sub.1

/-- The patterns that must not occur in a string for `back` to undo
`forth`. -/
def Rule.needs : Rule → List (List Byte)
  | .insert a w b => [[a, w, b]]
  | .double c d => [[d, d], [d, c]]

/-- The patterns a rule removes from every string. -/
def Rule.clears : Rule → List (List Byte)
  | .insert a _ b => [[a, b]]
  | .double _ _ => []

/-- The patterns a rule cannot bring in. -/
def Rule.safe : Rule → List Byte → Bool
  | .insert a w b => insertSafe a w b
  | .double _ d => doubleSafe d

/-- The rules can be run forth and back on every string in which none of the
patterns `absent` occurs: each rule finds the patterns it needs absent, and
the patterns stay absent as far as the rules before are safe for them. -/
def ready : List Rule → List (List Byte) → Bool
  | [], _ => true
  | r :: rules, absent =>
    r.ok && r.needs.all (fun p => decide (p ∈ absent))
      && ready rules (absent.filter r.safe ++ r.clears)

/-- The entries of `substitutions` as rules. -/
def rules : List Rule :=
  [ .insert 81 87 32, .insert 32 87 81, .double 32 81,
    .insert 88 87 44, .insert 44 87 88, .double 44 88,
    .insert 86 87 46, .insert 46 87 86, .double 46 86,
    .insert 89 81 45, .insert 45 81 89, .double 45 89 ]

/-- The bytes a string may hold after a rule, given those it may hold
before. -/
def Rule.bytesAfter : Rule → List Byte → List Byte
  | .insert _ w _, allowed => w :: allowed
  | .double c d, allowed => d :: allowed.filter (fun x => !decide (x = c))

/-! ## Arithmetic of `shift` -/

theorem getSize_Alphabet : Alphabet.getSize = 26 := by decide

theorem wrapInt64_eq_self {x : Int} (h : inInt64 x) : wrapInt64 x = x := by
  unfold inInt64 at h
  unfold wrapInt64
  omega

theorem tmod_26 (x : Int) :
    Int.tmod x 26 = if 0 ≤ x then x % 26 else -((-x) % 26) := by
  split
  · next h => exact Int.tmod_eq_emod h (by decide)
  · next h =>
    have h1 : Int.tdiv x 26 = -((-x) / 26) := by
      have h2 : x = -(-x) := by omega
      rw [h2, Int.neg_tdiv, Int.tdiv_eq_ediv (by omega) (by decide)]
      simp
    rw [Int.tmod_def, h1]
    omega

theorem shift_eq_emod (value amount : Int) (h : inInt64 (value + amount)) :
    shift value amount = (value + amount) % 26 := by
  unfold shift
  simp only [getSize_Alphabet, wrapInt64_eq_self h, tmod_26]
  have hb := h
  unfold inInt64 at hb
  split
  · next h0 =>
    rw [if_neg (by omega)]
  · next h0 =>
    split
    · next h1 =>
      rw [wrapInt64_eq_self (by unfold inInt64; omega)]
      omega
    · next h1 => omega

theorem shift_mem_range (value amount : Int) (h : inInt64 (value + amount)) :
    0 ≤ shift value amount ∧ shift value amount < 26 := by
  rw [shift_eq_emod value amount h]
  omega

theorem shift_back (i p : Int) (hi : 0 ≤ i ∧ i < 26) (hp : 0 ≤ p ∧ p < 26) :
    shift (shift i p) (-p) = i := by
  have h1 : inInt64 (i + p) := by unfold inInt64; omega
  have h2 := shift_mem_range i p h1
  have h3 : inInt64 (shift i p + -p) := by unfold inInt64; omega
  rw [shift_eq_emod _ _ h3, shift_eq_emod _ _ h1]
  omega

theorem shift_forth (j p : Int) (hj : 0 ≤ j ∧ j < 26) (hp : 0 ≤ p ∧ p < 26) :
    shift (shift j (-p)) p = j := by
  have h1 : inInt64 (j + -p) := by unfold inInt64; omega
  have h2 := shift_mem_range j (-p) h1
  have h3 : inInt64 (shift j (-p) + p) := by unfold inInt64; omega
  rw [shift_eq_emod _ _ h3, shift_eq_emod _ _ h1]
  omega

/-! ## The claims -/

/-- C1: `translate` is its own inverse at a fixed wheel position. For every
reflector whose `letterMap` is a complete involution on [0,26) (every key
0..25 is present, its value is again in [0,26), and the value maps back to
the key), every `wheelPosition` in [0,26) and every index `i` in [0,26),
`translate (translate i) = i`, both calls on the same state. -/
theorem C1_translate_involutive (r : reflector) (i : Int)
    (hmap : ∀ k : Int, 0 ≤ k → k < 26 →
      ∃ v : Int, 0 ≤ v ∧ v < 26 ∧ r.letterMap k = some v ∧ r.letterMap v = some k)
    (hp : 0 ≤ r.wheelPosition ∧ r.wheelPosition < 26)
    (hi : 0 ≤ i ∧ i < 26) :
    r.translate (r.translate i) = i := by
  have hw : wrapInt64 (-r.wheelPosition) = -r.wheelPosition :=
    wrapInt64_eq_self (by unfold inInt64; omega)
  have hk := shift_mem_range i r.wheelPosition (by unfold inInt64; omega)
  obtain ⟨v, hv0, hv1, hkv, hvk⟩ := hmap (shift i r.wheelPosition) hk.1 hk.2
  unfold reflector.translate
  rw [hw]
  have e1 : r.letterMap.get (shift i r.wheelPosition) = v := by
    simp [IntMap.get, hkv]
  rw [e1, shift_forth v r.wheelPosition ⟨hv0, hv1⟩ hp]
  have e2 : r.letterMap.get v = shift i r.wheelPosition := by
    simp [IntMap.get, hvk]
  rw [e2]
  exact shift_back i r.wheelPosition hi hp

/-- C6: the two shifts of `translate` cancel. For every index `i` in [0,26)
and every wheel position `p` in [0,26), `shift (shift i p) (-p) = i`. -/
theorem C6_shift_inverse_pair (i p : Int) (hi : 0 ≤ i ∧ i < 26)
    (hp : 0 ≤ p ∧ p < 26) : shift (shift i p) (-p) = i :=
  shift_back i p hi hp

/-- C7: `shift` is rotation normalised into the alphabet range. Whenever
`value + amount` does not overflow, `shift value amount` lies in [0,26), is
congruent to `value + amount` modulo 26, and is the only such number. Also
`shift i 0 = i` on [0,26), `shift 25 1 = 0` and `shift 0 (-1) = 25`. -/
theorem C7_shift_cyclic (value amount : Int) (h : inInt64 (value + amount)) :
    (0 ≤ shift value amount ∧ shift value amount < 26
      ∧ shift value amount ≡ value + amount [ZMOD 26])
    ∧ (∀ r : Int, 0 ≤ r → r < 26 → r ≡ value + amount [ZMOD 26] →
        r = shift value amount)
    ∧ (∀ i : Int, 0 ≤ i → i < 26 → shift i 0 = i)
    ∧ shift 25 1 = 0 ∧ shift 0 (-1) = 25 := by
  have hs := shift_eq_emod value amount h
  refine ⟨⟨?_, ?_, ?_⟩, ?_, ?_, ?_, ?_⟩
  · rw [hs]; omega
  · rw [hs]; omega
  · rw [hs]; unfold Int.ModEq; omega
  · intro r h0 h1 hr
    rw [hs]
    unfold Int.ModEq at hr
    omega
  · intro i h0 h1
    rw [shift_eq_emod i 0 (by unfold inInt64; omega)]
    omega
  · decide
  · decide

/-! ## UTF-8 on ASCII strings -/

theorem decodeRune_ascii (b : Byte) (rest : List Byte) (h : b.val < 128) :
    decodeRune (b :: rest) = ((b.val : Int), 1) := by
  simp [decodeRune, h]

theorem decodeRune_ge (b : Byte) (rest : List Byte) (h : 128 ≤ b.val) :
    128 ≤ (decodeRune (b :: rest)).1 := by
  have hb := b.isLt
  simp only [decodeRune]
  repeat' split
  all_goals simp only [runeError, inRange, Bool.and_eq_true, decide_eq_true_eq] at *
  all_goals omega

theorem rangeFrom_ascii (s : List Byte) (off : Nat) (h : ∀ b ∈ s, b.val < 128) :
    rangeFrom off 0 s = (s.enumFrom off).map (fun p => ((p.1 : Int), (p.2.val : Int))) := by
  induction s generalizing off with
  | nil => rfl
  | cons b rest ih =>
    have hb : b.val < 128 := h b (List.mem_cons_self _ _)
    have hrest : ∀ c ∈ rest, c.val < 128 := fun c hc => h c (List.mem_cons_of_mem _ hc)
    simp only [rangeFrom, decodeRune_ascii b rest hb, List.enumFrom, List.map_cons]
    rw [ih (off + 1) hrest]

theorem ascii_of_rangeFrom (s : List Byte) (off : Nat)
    (h : ∀ p ∈ rangeFrom off 0 s, p.2 < 128) : ∀ b ∈ s, b.val < 128 := by
  induction s generalizing off with
  | nil => intro b hb; cases hb
  | cons c rest ih =>
    have hc : c.val < 128 := by
      by_contra hge
      have h1 := decodeRune_ge c rest (by omega)
      have h2 := h ((off : Int), (decodeRune (c :: rest)).1) (by simp [rangeFrom])
      simp only at h2
      omega
    have hrec : ∀ p ∈ rangeFrom (off + 1) 0 rest, p.2 < 128 := by
      intro p hp
      apply h p
      simp only [rangeFrom, decodeRune_ascii c rest hc]
      exact List.mem_cons_of_mem _ hp
    intro b hb
    rcases List.mem_cons.1 hb with rfl | hb
    · exact hc
    · exact ih (off + 1) hrec b hb

theorem toRunes_ascii (s : List Byte) (h : ∀ b ∈ s, b.val < 128) :
    toRunes s = s.map (fun b => (b.val : Int)) := by
  unfold toRunes rangeString
  rw [rangeFrom_ascii s 0 h]
  generalize 0 = off
  induction s generalizing off with
  | nil => rfl
  | cons b rest ih =>
    simp only [List.enumFrom, List.map_cons]
    rw [ih (fun c hc => h c (List.mem_cons_of_mem _ hc))]

theorem ascii_of_toRunes (s : List Byte) (h : ∀ r ∈ toRunes s, r < 128) :
    ∀ b ∈ s, b.val < 128 := by
  apply ascii_of_rangeFrom s 0
  intro p hp
  apply h
  unfold toRunes rangeString
  exact List.mem_map_of_mem Prod.snd hp

theorem ofNat_val (b : Byte) : (Fin.ofNat ((b.val : Int)).toNat : Byte) = b := by
  apply Fin.ext
  have hb := b.isLt
  simp only [Fin.ofNat, Int.toNat_ofNat]
  omega

theorem encodeRune_ascii (r : Int) (h : 0 ≤ r ∧ r < 128) :
    encodeRune r = [Fin.ofNat r.toNat] := by
  unfold encodeRune
  rw [if_neg (by omega), if_pos h.2]

theorem encodeRune_high (r : Int) (h : ¬ (0 ≤ r ∧ r < 128)) :
    ∃ b ∈ encodeRune r, 128 ≤ b.val := by
  unfold encodeRune
  split
  · exact ⟨239, by simp, by decide⟩
  · split
    · omega
    · split
      · refine ⟨Fin.ofNat (128 + r.toNat % 64), by simp, ?_⟩
        simp only [Fin.ofNat]; omega
      · split
        · refine ⟨Fin.ofNat (128 + r.toNat % 64), by simp, ?_⟩
          simp only [Fin.ofNat]; omega
        · refine ⟨Fin.ofNat (128 + r.toNat % 64), by simp, ?_⟩
          simp only [Fin.ofNat]; omega

theorem fromRunes_ascii (rs : List Int) (h : ∀ r ∈ rs, 0 ≤ r ∧ r < 128) :
    fromRunes rs = rs.map (fun r => Fin.ofNat r.toNat) := by
  induction rs with
  | nil => rfl
  | cons r rest ih =>
    unfold fromRunes at ih ⊢
    rw [List.flatMap_cons, encodeRune_ascii r (h r (List.mem_cons_self _ _)),
      ih (fun x hx => h x (List.mem_cons_of_mem _ hx))]
    rfl

theorem ascii_of_fromRunes (rs : List Int) (h : ∀ b ∈ fromRunes rs, b.val < 128) :
    ∀ r ∈ rs, 0 ≤ r ∧ r < 128 := by
  intro r hr
  by_contra hn
  obtain ⟨b, hb, hge⟩ := encodeRune_high r hn
  have := h b (by unfold fromRunes; exact List.mem_flatMap.2 ⟨r, hr, hb⟩)
  omega

theorem letterMap_Alphabet :
    Alphabet.letterMap = [65, 66, 67, 68, 69, 70, 71, 72, 73, 74, 75, 76, 77, 78, 79, 80,
      81, 82, 83, 84, 85, 86, 87, 88, 89, 90] := by decide

theorem sortString_Alphabet : sortString Alphabet.letterMap = Alphabet.letterMap := by
  decide

set_option maxRecDepth 100000 in
theorem mem_Alphabet (b : Byte) : b ∈ Alphabet.letterMap ↔ 65 ≤ b.val ∧ b.val ≤ 90 := by
  revert b
  decide

theorem ascii_of_perm_Alphabet (w : List Byte) (h : w.Perm Alphabet.letterMap) :
    ∀ b ∈ w, b.val < 128 := by
  intro b hb
  have := (mem_Alphabet b).1 (h.mem_iff.1 hb)
  omega

/-- The method `isValidWiring` accepts exactly the rearrangements of the
alphabet string. -/
theorem isValidWiring_iff_perm (a : alphabet) (w : List Byte) :
    a.isValidWiring w = true ↔ w.Perm Alphabet.letterMap := by
  unfold alphabet.isValidWiring
  rw [decide_eq_true_eq, sortString_Alphabet]
  constructor
  · intro h
    unfold sortString at h
    have hA : ∀ b ∈ Alphabet.letterMap, b.val < 128 := by
      intro b hb
      have := (mem_Alphabet b).1 hb
      omega
    have h1 : ∀ r ∈ sortRunes (toRunes w), 0 ≤ r ∧ r < 128 :=
      ascii_of_fromRunes _ (by rw [h]; exact hA)
    have hp : (sortRunes (toRunes w)).Perm (toRunes w) := List.perm_insertionSort _ _
    have h2 : ∀ b ∈ w, b.val < 128 :=
      ascii_of_toRunes w (fun r hr => (h1 r (hp.mem_iff.2 hr)).2)
    rw [fromRunes_ascii _ h1, toRunes_ascii w h2] at h
    rw [toRunes_ascii w h2] at hp
    have h3 := hp.map (fun r : Int => (Fin.ofNat r.toNat : Byte))
    rw [h, List.map_map] at h3
    have h4 : List.map ((fun r : Int => (Fin.ofNat r.toNat : Byte)) ∘ fun b : Byte => (b.val : Int)) w
        = w := by
      conv_rhs => rw [← List.map_id w]
      apply List.map_congr_left
      intro b _
      exact ofNat_val b
    rw [h4] at h3
    exact h3.symm
  · intro h
    have h2 := ascii_of_perm_Alphabet w h
    have hs : sortRunes (toRunes w) = sortRunes (toRunes Alphabet.letterMap) := by
      apply List.eq_of_perm_of_sorted (r := fun a b : Int => a ≤ b)
      · unfold sortRunes
        refine (List.perm_insertionSort _ _).trans ?_
        refine List.Perm.trans ?_ (List.perm_insertionSort _ _).symm
        rw [toRunes_ascii w h2,
          toRunes_ascii _ (ascii_of_perm_Alphabet _ (List.Perm.refl _))]
        exact h.map _
      · exact List.sorted_insertionSort _ _
      · exact List.sorted_insertionSort _ _
    unfold sortString
    rw [hs]
    exact sortString_Alphabet

/-- C8: `isValidWiring w` is true exactly when `w` is a rearrangement of the
alphabet: `w` has length 26 and holds each of 'A'..'Z' exactly once. It is
true for "ABCDEFGHIJKLMNOPQRSTUVWXYZ" and false for
"ABCDEFGHIJKLMNOPQRSTUVWXYY". -/
theorem C8_isValidWiring_iff (a : alphabet) (w : List Byte) :
    (a.isValidWiring w = true ↔
      (w.length = 26 ∧ ∀ c : Byte, 65 ≤ c.val → c.val ≤ 90 → w.count c = 1))
    ∧ a.isValidWiring (ascii "ABCDEFGHIJKLMNOPQRSTUVWXYZ") = true
    ∧ a.isValidWiring (ascii "ABCDEFGHIJKLMNOPQRSTUVWXYY") = false := by
  refine ⟨?_, by unfold alphabet.isValidWiring; decide,
    by unfold alphabet.isValidWiring; decide⟩
  rw [isValidWiring_iff_perm]
  have hnd : Alphabet.letterMap.Nodup := by decide
  constructor
  · intro h
    refine ⟨by rw [h.length_eq]; decide, ?_⟩
    intro c h1 h2
    rw [h.count_eq c]
    exact List.count_eq_one_of_mem hnd ((mem_Alphabet c).2 ⟨h1, h2⟩)
  · rintro ⟨hlen, hcount⟩
    have hsub : Alphabet.letterMap ⊆ w := by
      intro c hc
      have hc2 := (mem_Alphabet c).1 hc
      have := hcount c hc2.1 hc2.2
      exact List.count_pos_iff.1 (by omega)
    have hsp := List.subperm_of_subset hnd hsub
    exact (hsp.perm_of_length_le (by rw [hlen]; decide)).symm

/-! ## The letter map built by `newReflector` -/

set_option maxRecDepth 100000 in
theorem charToInt_Alphabet (b : Byte) :
    Alphabet.charToInt b
      = if 65 ≤ b.val ∧ b.val ≤ 90 then ((b.val : Int) - 65, true) else (0, false) := by
  revert b
  decide

theorem runeToByte_val (b : Byte) : runeToByte (b.val : Int) = b := by
  apply Fin.ext
  have hb := b.isLt
  simp only [runeToByte, Fin.ofNat]
  omega

/-- Every assignment of the loop of `newReflector` agreeing with a map `T`,
the loop ends without a panic in a map that agrees with `T` on the keys it
holds, and it holds the keys it started with and those it was given. -/
theorem newReflectorLoop_agree (T : IntMap) (pairs : List (Int × Int)) :
    ∀ m0 : IntMap,
      (∀ p ∈ pairs, (Alphabet.charToInt (runeToByte p.2)).2 = true
        ∧ T p.1 = some (Alphabet.charToInt (runeToByte p.2)).1
        ∧ T (Alphabet.charToInt (runeToByte p.2)).1 = some p.1) →
      (∀ k, m0 k = none ∨ m0 k = T k) →
      ∃ m, newReflectorLoop pairs m0 = .ok m
        ∧ (∀ k, m k = none ∨ m k = T k)
        ∧ (∀ k, m0 k ≠ none → m k ≠ none)
        ∧ (∀ p ∈ pairs, m p.1 ≠ none)
        ∧ (∀ k, m k ≠ none → m0 k ≠ none
            ∨ ∃ p ∈ pairs, k = p.1 ∨ k = (Alphabet.charToInt (runeToByte p.2)).1) := by
  induction pairs with
  | nil =>
    intro m0 _ h0
    exact ⟨m0, rfl, h0, fun _ h => h, fun p hp => absurd hp (List.not_mem_nil _),
      fun k h => Or.inl h⟩
  | cons p rest ih =>
    intro m0 hp h0
    obtain ⟨i, letter⟩ := p
    obtain ⟨hok, hT1, hT2⟩ := hp (i, letter) (List.mem_cons_self _ _)
    simp only at hok hT1 hT2
    have hstep : ∀ k, ((m0.set i (Alphabet.charToInt (runeToByte letter)).1).set
        (Alphabet.charToInt (runeToByte letter)).1 i) k = none
        ∨ ((m0.set i (Alphabet.charToInt (runeToByte letter)).1).set
        (Alphabet.charToInt (runeToByte letter)).1 i) k = T k := by
      intro k
      simp only [IntMap.set]
      split
      · next hk => right; rw [hk, hT2]
      · split
        · next hk => right; rw [hk, hT1]
        · exact h0 k
    obtain ⟨m, hm, hagree, hkeep, hkeys, hfrom⟩ :=
      ih _ (fun q hq => hp q (List.mem_cons_of_mem _ hq)) hstep
    refine ⟨m, ?_, hagree, ?_, ?_, ?_⟩
    · simp only [newReflectorLoop, hok, Bool.true_eq_false, if_false]
      exact hm
    · intro k hk
      apply hkeep
      simp only [IntMap.set]
      split
      · simp
      · split
        · simp
        · exact hk
    · intro q hq
      rcases List.mem_cons.1 hq with rfl | hq
      · apply hkeep
        simp only [IntMap.set]
        split <;> simp
      · exact hkeys q hq
    · intro k hk
      rcases hfrom k hk with h | ⟨q, hq, h⟩
      · simp only [IntMap.set] at h
        by_cases h1 : k = (Alphabet.charToInt (runeToByte letter)).1
        · exact Or.inr ⟨(i, letter), List.mem_cons_self _ _, Or.inr h1⟩
        · by_cases h2 : k = i
          · exact Or.inr ⟨(i, letter), List.mem_cons_self _ _, Or.inl h2⟩
          · rw [if_neg h1, if_neg h2] at h
            exact Or.inl h
      · exact Or.inr ⟨q, List.mem_cons_of_mem _ hq, h⟩

/-- The pairs that `range` yields on a rearrangement of the alphabet. -/
theorem mem_rangeString_of_perm (w : List Byte) (h : w.Perm Alphabet.letterMap)
    (p : Int × Int) :
    p ∈ rangeString w ↔
      ∃ i : Nat, ∃ b : Byte, w[i]? = some b ∧ p = ((i : Int), (b.val : Int)) := by
  unfold rangeString
  rw [rangeFrom_ascii w 0 (ascii_of_perm_Alphabet w h)]
  simp only [List.mem_map, Prod.exists, List.mk_mem_enumFrom_iff_le_and_getElem?_sub,
    Nat.zero_le, true_and, Nat.sub_zero]
  constructor
  · rintro ⟨i, b, hb, rfl⟩
    exact ⟨i, b, hb, rfl⟩
  · rintro ⟨i, b, hb, rfl⟩
    exact ⟨i, b, hb, rfl⟩

theorem wiringSubst_of_getElem (w : List Byte) (h : w.Perm Alphabet.letterMap)
    (i : Nat) (b : Byte) (hb : w[i]? = some b) :
    i < 26 ∧ 65 ≤ b.val ∧ b.val ≤ 90 ∧ wiringSubst w (i : Int) = (b.val : Int) - 65
      ∧ Alphabet.charToInt b = ((b.val : Int) - 65, true) := by
  have hlen : w.length = 26 := by rw [h.length_eq]; decide
  obtain ⟨hi, hib⟩ := List.getElem?_eq_some.1 hb
  have hmem : b ∈ Alphabet.letterMap := h.mem_iff.1 (hib ▸ List.getElem_mem hi)
  have hr := (mem_Alphabet b).1 hmem
  have hc : Alphabet.charToInt b = ((b.val : Int) - 65, true) := by
    rw [charToInt_Alphabet, if_pos hr]
  refine ⟨by omega, hr.1, hr.2, ?_, hc⟩
  unfold wiringSubst
  rw [List.getD_eq_getElem?_getD, Int.toNat_ofNat, hb, Option.getD_some, hc]

/-- The letter map that `newReflector` builds from a rearrangement of the
alphabet whose substitution is an involution is that substitution. -/
theorem newReflector_of_involution (model : ReflectorModel)
    (hperm : model.getWiring.Perm Alphabet.letterMap)
    (hinv : ∀ i : Int, 0 ≤ i → i < 26 →
      wiringSubst model.getWiring (wiringSubst model.getWiring i) = i) :
    ∃ r, newReflector model = .ok r ∧ r.model = model ∧ r.wheelPosition = 0
      ∧ (∀ k : Int, 0 ≤ k → k < 26 →
          r.letterMap k = some (wiringSubst model.getWiring k)
          ∧ 0 ≤ wiringSubst model.getWiring k ∧ wiringSubst model.getWiring k < 26)
      ∧ (∀ k : Int, ¬ (0 ≤ k ∧ k < 26) → r.letterMap k = none) := by
  have hlen : model.getWiring.length = 26 := by rw [hperm.length_eq]; decide
  have hvalid : Alphabet.isValidWiring model.getWiring = true :=
    (isValidWiring_iff_perm _ _).2 hperm
  obtain ⟨m, hm, hagree, _, hkeys, hfrom⟩ := newReflectorLoop_agree
    (fun k => if 0 ≤ k ∧ k < 26 then some (wiringSubst model.getWiring k) else none)
    (rangeString model.getWiring) IntMap.empty
    (by
      intro p hp
      obtain ⟨i, b, hb, rfl⟩ := (mem_rangeString_of_perm _ hperm p).1 hp
      obtain ⟨hi, h1, h2, hs, hc⟩ := wiringSubst_of_getElem _ hperm i b hb
      simp only [runeToByte_val, hc]
      refine ⟨trivial, ?_, ?_⟩
      · rw [if_pos (by omega), hs]
      · rw [if_pos (by omega), ← hs, hinv _ (by omega) (by omega)])
    (fun k => Or.inl rfl)
  refine ⟨{ model := model, letterMap := m, wheelPosition := 0 }, ?_, rfl, rfl, ?_, ?_⟩
  · unfold newReflector
    simp only [hvalid, Bool.true_eq_false, if_false, hm]
  · intro k h0 h1
    have hlt : k.toNat < model.getWiring.length := by omega
    have hk : (model.getWiring)[k.toNat]? = some (model.getWiring)[k.toNat] :=
      List.getElem?_eq_getElem hlt
    have hkcast : ((k.toNat : Nat) : Int) = k := Int.toNat_of_nonneg h0
    obtain ⟨_, h2, h3, hs, _⟩ := wiringSubst_of_getElem _ hperm k.toNat _ hk
    rw [hkcast] at hs
    have hin : ((k.toNat : Int), (((model.getWiring)[k.toNat]).val : Int))
        ∈ rangeString model.getWiring :=
      (mem_rangeString_of_perm _ hperm _).2 ⟨k.toNat, _, hk, rfl⟩
    have hne := hkeys _ hin
    simp only [hkcast] at hne
    refine ⟨?_, by omega, by omega⟩
    rcases hagree k with h | h
    · exact absurd h hne
    · show m k = _
      rw [h, if_pos ⟨h0, h1⟩]
  · intro k hk
    show m k = none
    by_contra hne
    rcases hfrom k hne with h | ⟨p, hp, h⟩
    · exact h rfl
    · obtain ⟨i, b, hb, rfl⟩ := (mem_rangeString_of_perm _ hperm p).1 hp
      obtain ⟨hi, h1, h2, hs, hc⟩ := wiringSubst_of_getElem _ hperm i b hb
      simp only [runeToByte_val, hc] at h
      omega

theorem C1_translate_involutive_witness :
    mirrorReflector.translate (mirrorReflector.translate 7) = 7 :=
  C1_translate_involutive mirrorReflector 7
    (fun k h0 h1 => ⟨25 - k, by omega, by omega, by
      simp only [mirrorReflector]
      rw [if_pos ⟨h0, h1⟩], by
      simp only [mirrorReflector]
      rw [if_pos (by omega)]
      congr 1
      omega⟩)
    (by decide) (by decide)

theorem C6_shift_inverse_pair_witness :
    (0 ≤ (25 : Int) ∧ (25 : Int) < 26) ∧ (0 ≤ (3 : Int) ∧ (3 : Int) < 26)
      ∧ shift (shift 25 3) (-3) = 25 :=
  ⟨by decide, by decide, C6_shift_inverse_pair 25 3 (by decide) (by decide)⟩

theorem C7_shift_cyclic_witness :
    inInt64 (-30 + 3) ∧ shift (-30) 3 = 25 :=
  ⟨by decide, ((C7_shift_cyclic (-30) 3 (by decide)).2.1 25 (by decide) (by decide)
    (by decide)).symm⟩

/-- C2: for every wiring string that is a rearrangement of the alphabet and
whose substitution `i ↦ charToInt(w[i])` is an involution without fixed
points, `newReflector` returns a reflector with wheel position 0 whose
`letterMap` has exactly the keys 0..25 and maps each `i` to `charToInt(w[i])`;
so `letterMap[letterMap[i]] = i` and `letterMap[i] ≠ i` on [0,26). -/
theorem C2_newReflector_wiring (model : ReflectorModel)
    (hperm : model.getWiring.Perm Alphabet.letterMap)
    (hinv : ∀ i : Int, 0 ≤ i → i < 26 →
      wiringSubst model.getWiring (wiringSubst model.getWiring i) = i)
    (hfix : ∀ i : Int, 0 ≤ i → i < 26 → wiringSubst model.getWiring i ≠ i) :
    ∃ r, newReflector model = .ok r ∧ r.wheelPosition = 0
      ∧ (∀ k : Int, (r.letterMap k).isSome = true ↔ 0 ≤ k ∧ k < 26)
      ∧ (∀ i : Int, 0 ≤ i → i < 26 →
          r.letterMap i = some (wiringSubst model.getWiring i)
          ∧ r.letterMap.get (r.letterMap.get i) = i
          ∧ r.letterMap.get i ≠ i) := by
  obtain ⟨r, hr, _, hw, hin, hout⟩ := newReflector_of_involution model hperm hinv
  refine ⟨r, hr, hw, ?_, ?_⟩
  · intro k
    by_cases hk : 0 ≤ k ∧ k < 26
    · simp [(hin k hk.1 hk.2).1, hk]
    · simp [hout k hk, hk]
  · intro i h0 h1
    obtain ⟨h2, h3, h4⟩ := hin i h0 h1
    have h5 := (hin _ h3 h4).1
    rw [hinv i h0 h1] at h5
    refine ⟨h2, ?_, ?_⟩
    · simp [IntMap.get, h2, h5]
    · simp only [IntMap.get, h2, Option.getD_some]
      exact hfix i h0 h1

theorem C2_newReflector_wiring_witness :
    ∃ r, newReflector fixedModel = .ok r ∧ r.wheelPosition = 0
      ∧ (∀ k : Int, (r.letterMap k).isSome = true ↔ 0 ≤ k ∧ k < 26)
      ∧ (∀ i : Int, 0 ≤ i → i < 26 →
          r.letterMap i = some (wiringSubst fixedModel.getWiring i)
          ∧ r.letterMap.get (r.letterMap.get i) = i
          ∧ r.letterMap.get i ≠ i) :=
  C2_newReflector_wiring fixedModel (by decide)
    (by intro i h0 h1; interval_cases i <;> decide)
    (by intro i h0 h1; interval_cases i <;> decide)

/-- C9, as stated, fails: the alphabet rotated by one letter passes
`isValidWiring`, and the map built from it has `letterMap[1] = 2` but
`letterMap[2] = 3`. -/
theorem C9_symmetry_counterexample :
    Alphabet.isValidWiring rotatedModel.getWiring = true
      ∧ ∃ r, newReflector rotatedModel = .ok r
        ∧ r.letterMap.get 1 = 2 ∧ r.letterMap.get 2 = 3 :=
  ⟨by decide, _, rfl, by decide, by decide⟩

/-- C9, amended: for every wiring string that passes `isValidWiring` and whose
substitution `i ↦ charToInt(w[i])` is an involution, `newReflector` returns a
reflector whose `letterMap` is symmetric: for all `a`, `b` in [0,26),
`letterMap[a] = b` implies `letterMap[b] = a`. -/
theorem C9_symmetry_of_involution (model : ReflectorModel)
    (hvalid : Alphabet.isValidWiring model.getWiring = true)
    (hinv : ∀ i : Int, 0 ≤ i → i < 26 →
      wiringSubst model.getWiring (wiringSubst model.getWiring i) = i) :
    ∃ r, newReflector model = .ok r
      ∧ ∀ a b : Int, 0 ≤ a → a < 26 → 0 ≤ b → b < 26 →
          r.letterMap.get a = b → r.letterMap.get b = a := by
  obtain ⟨r, hr, _, _, hin, _⟩ :=
    newReflector_of_involution model ((isValidWiring_iff_perm _ _).1 hvalid) hinv
  refine ⟨r, hr, ?_⟩
  intro a b ha0 ha1 hb0 hb1 hab
  simp only [IntMap.get, (hin a ha0 ha1).1, Option.getD_some] at hab
  simp only [IntMap.get, (hin b hb0 hb1).1, Option.getD_some]
  rw [← hab]
  exact hinv a ha0 ha1

theorem C9_symmetry_of_involution_witness :
    ∃ r, newReflector fixedModel = .ok r
      ∧ ∀ a b : Int, 0 ≤ a → a < 26 → 0 ≤ b → b < 26 →
          r.letterMap.get a = b → r.letterMap.get b = a :=
  C9_symmetry_of_involution fixedModel (by decide)
    (by intro i h0 h1; interval_cases i <;> decide)

/-- C5: `setWheelPosition` returns an error exactly when the model is not
movable or the symbol is none of 'A'..'Z'; whenever it returns an error the
state is the one before the call, so `translate` is unchanged at every index;
on a model that is not movable it returns the error for every symbol. -/
theorem C5_setWheelPosition_error (r : reflector) (letter : Byte) :
    ((r.setWheelPosition letter).2.isSome = true ↔
      (r.model.IsMovable = false ∨ ¬ (65 ≤ letter.val ∧ letter.val ≤ 90)))
    ∧ ((r.setWheelPosition letter).2.isSome = true →
        (r.setWheelPosition letter).1 = r
        ∧ ∀ i : Int, (r.setWheelPosition letter).1.translate i = r.translate i)
    ∧ (r.model.IsMovable = false →
        (r.setWheelPosition letter).2 = some (.fixedReflector r.model)) := by
  have hc := charToInt_Alphabet letter
  refine ⟨?_, ?_, ?_⟩
  · unfold reflector.setWheelPosition
    by_cases hm : r.model.IsMovable = false
    · simp [hm]
    · by_cases hl : 65 ≤ letter.val ∧ letter.val ≤ 90
      · rw [if_neg hm, hc, if_pos hl]
        simp [hm, hl]
      · rw [if_neg hm, hc, if_neg hl]
        simp [hl]
  · intro h
    have hs : (r.setWheelPosition letter).1 = r := by
      unfold reflector.setWheelPosition at h ⊢
      split
      · rfl
      · next hm =>
        rw [if_neg hm] at h
        split
        · rfl
        · next hl =>
          rw [if_neg hl] at h
          simp at h
    exact ⟨hs, fun i => by rw [hs]⟩
  · intro hm
    unfold reflector.setWheelPosition
    rw [if_pos hm]

theorem C5_setWheelPosition_error_witness :
    (fixedMirror.setWheelPosition 65).2.isSome = true
      ∧ (fixedMirror.setWheelPosition 65).1 = fixedMirror :=
  ⟨by decide, ((C5_setWheelPosition_error fixedMirror 65).2.1 (by decide)).1⟩

/-! ## The map `wiringMap` of `setWiring` -/

theorem defaultLetterMapLoop_apply (fuel : Nat) :
    ∀ (i : Int) (m : IntMap), 0 ≤ i → i + fuel = 26 → ∀ k : Int,
      defaultLetterMapLoop fuel i m k = if i ≤ k ∧ k < 26 then some k else m k := by
  induction fuel with
  | zero =>
    intro i m _ hi k
    simp only [defaultLetterMapLoop]
    rw [if_neg (by omega)]
  | succ n ih =>
    intro i m h0 hi k
    simp only [defaultLetterMapLoop, getSize_Alphabet]
    rw [if_pos (by omega), wrapInt64_eq_self (by unfold inInt64; omega),
      ih (i + 1) _ (by omega) (by push_cast at hi; omega) k]
    simp only [IntMap.set]
    by_cases hk : k = i
    · subst hk
      rw [if_neg (by omega), if_pos rfl, if_pos (by omega)]
    · rw [if_neg hk]
      by_cases h1 : i + 1 ≤ k ∧ k < 26
      · rw [if_pos h1, if_pos (by omega)]
      · rw [if_neg h1, if_neg (by omega)]

/-- The default letter map sends each index of the alphabet to itself. -/
theorem getDefaultLetterMap_apply (k : Int) :
    getDefaultLetterMap k = if 0 ≤ k ∧ k < 26 then some k else none := by
  unfold getDefaultLetterMap
  rw [getSize_Alphabet]
  exact defaultLetterMapLoop_apply 26 0 IntMap.empty (by decide) (by decide) k

/-- The loop of `getDefaultLetterMap` ends by its condition: more fuel changes
nothing. -/
theorem defaultLetterMapLoop_fuel (extra : Nat) :
    defaultLetterMapLoop (Alphabet.getSize.toNat + extra) 0 IntMap.empty
      = getDefaultLetterMap := by
  have h : ∀ (fuel : Nat) (i : Int) (m : IntMap), 0 ≤ i → i + fuel = 26 →
      defaultLetterMapLoop (fuel + extra) i m = defaultLetterMapLoop fuel i m := by
    intro fuel
    induction fuel with
    | zero =>
      intro i m _ hi
      cases extra with
      | zero => rfl
      | succ e =>
        simp only [Nat.zero_add, defaultLetterMapLoop, getSize_Alphabet]
        rw [if_neg (by omega)]
    | succ n ih =>
      intro i m h0 hi
      rw [show n + 1 + extra = (n + extra) + 1 by omega]
      simp only [defaultLetterMapLoop, getSize_Alphabet]
      rw [if_pos (by omega), if_pos (by omega), wrapInt64_eq_self (by unfold inInt64; omega)]
      exact ih (i + 1) _ (by omega) (by push_cast at hi; omega)
  unfold getDefaultLetterMap
  rw [getSize_Alphabet]
  exact h 26 0 IntMap.empty (by decide) (by decide)

theorem hardWiredMap_apply (k : Int) :
    hardWiredMap k =
      if k = 14 then some 1 else if k = 1 then some 14
      else if 0 ≤ k ∧ k < 26 then some k else none := by
  have hJ : stringsIndexByte ukwdOrder 74 = 1 := by decide
  have hY : stringsIndexByte ukwdOrder 89 = 14 := by decide
  unfold hardWiredMap
  rw [hJ, hY]
  simp only [IntMap.set, getDefaultLetterMap_apply]

/-! ## `strings.IndexByte`, `strings.Split` and `strings.Join` -/

theorem stringsIndexByte_range (s : List Byte) (c : Byte) :
    stringsIndexByte s c = -1
      ∨ (0 ≤ stringsIndexByte s c ∧ stringsIndexByte s c < s.length) := by
  induction s with
  | nil => left; rfl
  | cons b rest ih =>
    simp only [stringsIndexByte, List.length_cons]
    split
    · right; constructor <;> omega
    · split
      · left; rfl
      · next h => right; push_cast; omega

theorem stringsIndexByte_eq_neg_one (s : List Byte) (c : Byte) :
    stringsIndexByte s c = -1 ↔ c ∉ s := by
  induction s with
  | nil => simp [stringsIndexByte]
  | cons b rest ih =>
    have hr := stringsIndexByte_range rest c
    simp only [stringsIndexByte, List.mem_cons, not_or]
    split
    · next h => subst h; simp
    · next h =>
      have hcb : ¬ c = b := fun e => h e.symm
      split
      · next h1 => simp only [true_iff]; exact ⟨hcb, ih.1 h1⟩
      · next h1 =>
        constructor
        · intro h2; omega
        · intro h2; exact absurd (ih.2 h2.2) h1

theorem stringsIndexByte_inj (s : List Byte) (c d : Byte)
    (hc : stringsIndexByte s c ≠ -1)
    (h : stringsIndexByte s c = stringsIndexByte s d) : c = d := by
  induction s with
  | nil => simp [stringsIndexByte] at hc
  | cons b rest ih =>
    have hrc := stringsIndexByte_range rest c
    have hrd := stringsIndexByte_range rest d
    simp only [stringsIndexByte] at hc h
    by_cases hbc : b = c
    · rw [if_pos hbc] at h
      by_cases hbd : b = d
      · rw [← hbc, ← hbd]
      · rw [if_neg hbd] at h
        split at h <;> omega
    · rw [if_neg hbc] at h hc
      by_cases hbd : b = d
      · rw [if_pos hbd] at h
        split at h <;> omega
      · rw [if_neg hbd] at h
        by_cases h1 : stringsIndexByte rest c = -1
        · rw [if_pos h1] at hc
          exact absurd rfl hc
        · rw [if_neg h1] at h
          by_cases h2 : stringsIndexByte rest d = -1
          · rw [if_pos h2] at h; omega
          · rw [if_neg h2] at h
            exact ih h1 (by omega)

theorem stringsSplit_ne_nil (s : List Byte) (sep : Byte) : stringsSplit s sep ≠ [] := by
  induction s with
  | nil => simp [stringsSplit]
  | cons b rest ih =>
    simp only [stringsSplit]
    split
    · simp
    · split <;> simp

theorem stringsSplit_of_not_mem (piece : List Byte) (sep : Byte) (h : sep ∉ piece) :
    stringsSplit piece sep = [piece] := by
  induction piece with
  | nil => rfl
  | cons b rest ih =>
    simp only [List.mem_cons, not_or] at h
    simp only [stringsSplit]
    rw [if_neg (fun e => h.1 e.symm), ih h.2]

theorem stringsSplit_append (piece s : List Byte) (sep : Byte) (h : sep ∉ piece) :
    stringsSplit (piece ++ sep :: s) sep = piece :: stringsSplit s sep := by
  induction piece with
  | nil => simp [stringsSplit]
  | cons b rest ih =>
    simp only [List.mem_cons, not_or] at h
    rw [List.cons_append, stringsSplit, if_neg (fun e => h.1 e.symm), ih h.2]

/-- Splitting undoes joining when no piece holds the separator. -/
theorem stringsSplit_stringsJoin (sep : Byte) (pieces : List (List Byte))
    (hne : pieces ≠ []) (h : ∀ piece ∈ pieces, sep ∉ piece) :
    stringsSplit (stringsJoin sep pieces) sep = pieces := by
  induction pieces with
  | nil => exact absurd rfl hne
  | cons piece rest ih =>
    cases rest with
    | nil =>
      simp only [stringsJoin]
      exact stringsSplit_of_not_mem piece sep (h piece (List.mem_cons_self _ _))
    | cons q rest2 =>
      simp only [stringsJoin]
      rw [stringsSplit_append _ _ _ (h piece (List.mem_cons_self _ _))]
      congr 1
      exact ih (by simp) (fun p hp => h p (List.mem_cons_of_mem _ hp))

/-! ## The loop of `setWiring` -/

set_option maxRecDepth 100000 in
theorem mem_ukwdOrder (c : Byte) : c ∈ ukwdOrder ↔ 65 ≤ c.val ∧ c.val ≤ 90 := by
  revert c
  decide

theorem ukwdIndex_range (c : Byte) (hc : c ∈ ukwdOrder) :
    0 ≤ stringsIndexByte ukwdOrder c ∧ stringsIndexByte ukwdOrder c < 26 := by
  have h1 := stringsIndexByte_range ukwdOrder c
  have h2 : ¬ stringsIndexByte ukwdOrder c = -1 :=
    fun e => (stringsIndexByte_eq_neg_one _ _).1 e hc
  have h3 : ukwdOrder.length = 26 := by decide
  rw [h3] at h1
  omega

theorem ukwdIndex_inj (c d : Byte) (hc : c ∈ ukwdOrder)
    (h : stringsIndexByte ukwdOrder c = stringsIndexByte ukwdOrder d) : c = d :=
  stringsIndexByte_inj ukwdOrder c d
    (fun e => (stringsIndexByte_eq_neg_one _ _).1 e hc) h

theorem ukwdIndex_J : stringsIndexByte ukwdOrder 74 = 1 := by decide

theorem ukwdIndex_Y : stringsIndexByte ukwdOrder 89 = 14 := by decide

theorem wireLetter_ok (m : IntMap) (pair : List Byte) (c : Byte) (hc : c ∈ ukwdOrder)
    (hm : m (stringsIndexByte ukwdOrder c) = some (stringsIndexByte ukwdOrder c)) :
    wireLetter m pair c = .ok (stringsIndexByte ukwdOrder c) := by
  unfold wireLetter
  rw [if_neg (fun e => (stringsIndexByte_eq_neg_one _ _).1 e hc), hm]
  simp

/-- What a letter accepted by `wireLetter` looks like. -/
theorem wireLetter_ok_inv (m : IntMap) (pair : List Byte) (c : Byte) (l : Int)
    (h : wireLetter m pair c = .ok l) :
    l = stringsIndexByte ukwdOrder c ∧ c ∈ ukwdOrder ∧ (m l = none ∨ m l = some l) := by
  unfold wireLetter at h
  split at h
  · cases h
  · next hne =>
    have hc : c ∈ ukwdOrder := by
      by_contra hn
      exact hne ((stringsIndexByte_eq_neg_one _ _).2 hn)
    split at h
    · next mapped hm =>
      split at h
      · split at h <;> cases h
      · next heq =>
        injection h with h
        subst h
        refine ⟨rfl, hc, Or.inr ?_⟩
        rw [hm]
        congr 1
        exact not_not.1 heq
    · next hm =>
      injection h with h
      subst h
      exact ⟨rfl, hc, Or.inl hm⟩

/-- Pairs of letters that occur once and are not yet wired are all accepted;
the map that results wires each pair and is unchanged elsewhere. -/
theorem wirePairs_ok (tokens : List (List Byte)) :
    ∀ m : IntMap,
      (∀ t ∈ tokens, t.length = 2) → tokens.flatten.Nodup →
      (∀ c ∈ tokens.flatten, c ∈ ukwdOrder
        ∧ m (stringsIndexByte ukwdOrder c) = some (stringsIndexByte ukwdOrder c)) →
      ∃ m1, wirePairs m tokens = .ok m1
        ∧ (∀ x y, [x, y] ∈ tokens →
            m1 (stringsIndexByte ukwdOrder x) = some (stringsIndexByte ukwdOrder y)
            ∧ m1 (stringsIndexByte ukwdOrder y) = some (stringsIndexByte ukwdOrder x))
        ∧ (∀ k, (∀ c ∈ tokens.flatten, k ≠ stringsIndexByte ukwdOrder c) → m1 k = m k) := by
  induction tokens with
  | nil =>
    intro m _ _ _
    exact ⟨m, rfl, fun x y h => absurd h (List.not_mem_nil _), fun k _ => rfl⟩
  | cons t rest ih =>
    intro m hlen hnd hfree
    have htl := hlen t (List.mem_cons_self _ _)
    match t, htl with
    | [x, y], _ =>
      rw [List.flatten_cons] at hnd hfree
      have hxy : x ≠ y := by
        intro e
        subst e
        simp at hnd
      have hx := hfree x (by simp)
      have hy := hfree y (by simp)
      have hdisj : ∀ c ∈ rest.flatten, c ≠ x ∧ c ≠ y := by
        intro c hc
        have hd := (List.nodup_append.1 hnd).2.2
        constructor
        · intro e; subst e; exact hd (by simp) hc
        · intro e; subst e; exact hd (by simp) hc
      have hrest : ∀ c ∈ rest.flatten, c ∈ ukwdOrder
          ∧ ((m.set (stringsIndexByte ukwdOrder x) (stringsIndexByte ukwdOrder y)).set
              (stringsIndexByte ukwdOrder y) (stringsIndexByte ukwdOrder x))
              (stringsIndexByte ukwdOrder c) = some (stringsIndexByte ukwdOrder c) := by
        intro c hc
        have h1 := hfree c (List.mem_append_right _ hc)
        refine ⟨h1.1, ?_⟩
        simp only [IntMap.set]
        rw [if_neg (fun e => (hdisj c hc).2 (ukwdIndex_inj c y h1.1 e)),
          if_neg (fun e => (hdisj c hc).1 (ukwdIndex_inj c x h1.1 e))]
        exact h1.2
      obtain ⟨m1, hm1, hpairs, hother⟩ := ih _
        (fun s hs => hlen s (List.mem_cons_of_mem _ hs))
        (List.nodup_append.1 hnd).2.1 hrest
      refine ⟨m1, ?_, ?_, ?_⟩
      · simp only [wirePairs, wirePair]
        rw [if_neg hxy, wireLetter_ok m _ x hx.1 hx.2, wireLetter_ok m _ y hy.1 hy.2]
        exact hm1
      · intro a b hab
        rcases List.mem_cons.1 hab with h | h
        · injection h with h1 h2
          injection h2 with h2 h3
          subst h1 h2
          have hxk : ∀ c ∈ rest.flatten,
              stringsIndexByte ukwdOrder a ≠ stringsIndexByte ukwdOrder c :=
            fun c hc e => (hdisj c hc).1 (ukwdIndex_inj a c hx.1 e).symm
          have hyk : ∀ c ∈ rest.flatten,
              stringsIndexByte ukwdOrder b ≠ stringsIndexByte ukwdOrder c :=
            fun c hc e => (hdisj c hc).2 (ukwdIndex_inj b c hy.1 e).symm
          rw [hother _ hxk, hother _ hyk]
          have hne : ¬ stringsIndexByte ukwdOrder a = stringsIndexByte ukwdOrder b :=
            fun e => hxy (ukwdIndex_inj a b hx.1 e)
          unfold IntMap.set
          constructor
          · rw [if_neg hne, if_pos rfl]
          · rw [if_pos rfl]
        · exact hpairs a b h
      · intro k hk
        rw [hother k (fun c hc => hk c (List.mem_append_right _ hc))]
        simp only [IntMap.set]
        rw [if_neg (hk y (by simp)), if_neg (hk x (by simp))]

set_option maxRecDepth 100000 in
theorem mem_freeLetters (c : Byte) :
    c ∈ ascii "ABCDEFGHIKLMNOPQRSTUVWXZ"
      ↔ (65 ≤ c.val ∧ c.val ≤ 90) ∧ c ≠ 74 ∧ c ≠ 89 := by
  revert c
  decide

theorem exists_ukwdIndex (k : Int) (h0 : 0 ≤ k) (h1 : k < 26) :
    ∃ c : Byte, c ∈ ukwdOrder ∧ stringsIndexByte ukwdOrder c = k := by
  refine ⟨ukwdOrder.getD k.toNat 0, ?_, ?_⟩ <;> interval_cases k <;> decide

theorem expectedSize_eq : wrapInt64 (Int.tdiv Alphabet.getSize 2 - 1) = 12 := by decide

/-- A letter other than J and Y is not wired in the map `setWiring` starts
from. -/
theorem hardWiredMap_free (c : Byte) (hc : c ∈ ukwdOrder) (hJ : c ≠ 74) (hY : c ≠ 89) :
    hardWiredMap (stringsIndexByte ukwdOrder c) = some (stringsIndexByte ukwdOrder c) := by
  have hr := ukwdIndex_range c hc
  have h1 : stringsIndexByte ukwdOrder c ≠ 1 :=
    fun e => hJ (ukwdIndex_inj c 74 hc (by rw [e, ukwdIndex_J]))
  have h14 : stringsIndexByte ukwdOrder c ≠ 14 :=
    fun e => hY (ukwdIndex_inj c 89 hc (by rw [e, ukwdIndex_Y]))
  rw [hardWiredMap_apply, if_neg h14, if_neg h1, if_pos hr]

/-- C3: on a rewirable reflector, a wiring specification of exactly 12
two-letter tokens joined by single spaces, whose 24 letters are the letters
other than J and Y, each once, is accepted by `setWiring`. The new `letterMap`
is an involution without fixed points on [0,26); the positions 1 and 14 of J
and Y in "AJZXWVUTSRQPONYMLKIHGFEDCB" map to each other; and for every token
`xy` the positions of `x` and `y` in that order map to each other. -/
theorem C3_setWiring_complete (r : reflector) (tokens : List (List Byte))
    (hr : r.model.IsRewirable = true)
    (hcount : tokens.length = 12)
    (htwo : ∀ t ∈ tokens, t.length = 2)
    (hletters : tokens.flatten.Perm (ascii "ABCDEFGHIKLMNOPQRSTUVWXZ")) :
    (r.setWiring (stringsJoin 32 tokens)).2 = none
    ∧ (∀ k : Int, 0 ≤ k → k < 26 → ∃ v : Int, 0 ≤ v ∧ v < 26 ∧ v ≠ k
        ∧ (r.setWiring (stringsJoin 32 tokens)).1.letterMap k = some v
        ∧ (r.setWiring (stringsJoin 32 tokens)).1.letterMap v = some k)
    ∧ stringsIndexByte ukwdOrder 74 = 1 ∧ stringsIndexByte ukwdOrder 89 = 14
    ∧ (r.setWiring (stringsJoin 32 tokens)).1.letterMap 1 = some 14
    ∧ (r.setWiring (stringsJoin 32 tokens)).1.letterMap 14 = some 1
    ∧ (∀ x y : Byte, [x, y] ∈ tokens →
        (r.setWiring (stringsJoin 32 tokens)).1.letterMap (stringsIndexByte ukwdOrder x)
          = some (stringsIndexByte ukwdOrder y)
        ∧ (r.setWiring (stringsJoin 32 tokens)).1.letterMap (stringsIndexByte ukwdOrder y)
          = some (stringsIndexByte ukwdOrder x)) := by
  have hmem : ∀ c ∈ tokens.flatten, c ∈ ukwdOrder ∧ c ≠ 74 ∧ c ≠ 89 := by
    intro c hc
    have h := (mem_freeLetters c).1 (hletters.mem_iff.1 hc)
    exact ⟨(mem_ukwdOrder c).2 h.1, h.2⟩
  have hnd : tokens.flatten.Nodup := hletters.nodup_iff.2 (by decide)
  have hsplit : stringsSplit (stringsJoin 32 tokens) 32 = tokens := by
    apply stringsSplit_stringsJoin
    · intro e; rw [e] at hcount; cases hcount
    · intro t ht h32
      have h := (mem_freeLetters 32).1
        (hletters.mem_iff.1 (List.mem_flatten.2 ⟨t, ht, h32⟩))
      exact absurd h.1.1 (by decide)
  obtain ⟨m1, hm1, hpairs, hother⟩ := wirePairs_ok tokens hardWiredMap htwo hnd
    (fun c hc => ⟨(hmem c hc).1,
      hardWiredMap_free c (hmem c hc).1 (hmem c hc).2.1 (hmem c hc).2.2⟩)
  have hset : r.setWiring (stringsJoin 32 tokens) = ({ r with letterMap := m1 }, none) := by
    unfold reflector.setWiring
    rw [if_neg (by simp [hr]), hsplit, expectedSize_eq, hcount, if_neg (by decide), hm1]
  have h1 : m1 1 = some 14 := by
    rw [hother 1 (fun c hc e =>
      (hmem c hc).2.1 (ukwdIndex_inj c 74 (hmem c hc).1 (by rw [← e, ukwdIndex_J]))),
      hardWiredMap_apply]
    rfl
  have h14 : m1 14 = some 1 := by
    rw [hother 14 (fun c hc e =>
      (hmem c hc).2.2 (ukwdIndex_inj c 89 (hmem c hc).1 (by rw [← e, ukwdIndex_Y]))),
      hardWiredMap_apply]
    rfl
  rw [hset]
  refine ⟨rfl, ?_, ukwdIndex_J, ukwdIndex_Y, h1, h14, hpairs⟩
  intro k h0 hk
  show ∃ v : Int, 0 ≤ v ∧ v < 26 ∧ v ≠ k ∧ m1 k = some v ∧ m1 v = some k
  obtain ⟨c, hc, hck⟩ := exists_ukwdIndex k h0 hk
  by_cases hJ : c = 74
  · have hk1 : k = 1 := by rw [← hck, hJ, ukwdIndex_J]
    subst hk1
    exact ⟨14, by decide, by decide, by decide, h1, h14⟩
  by_cases hY : c = 89
  · have hk14 : k = 14 := by rw [← hck, hY, ukwdIndex_Y]
    subst hk14
    exact ⟨1, by decide, by decide, by decide, h14, h1⟩
  have hcin : c ∈ tokens.flatten :=
    hletters.mem_iff.2 ((mem_freeLetters c).2 ⟨(mem_ukwdOrder c).1 hc, hJ, hY⟩)
  obtain ⟨t, ht, hct⟩ := List.mem_flatten.1 hcin
  obtain ⟨x, y, rfl⟩ := List.length_eq_two.1 (htwo t ht)
  have hxy : x ≠ y := by
    have hn := (List.nodup_flatten.1 hnd).1 _ ht
    intro e
    subst e
    simp at hn
  have hx := (hmem x (List.mem_flatten.2 ⟨_, ht, by simp⟩)).1
  have hy := (hmem y (List.mem_flatten.2 ⟨_, ht, by simp⟩)).1
  have hp := hpairs x y ht
  have hne : stringsIndexByte ukwdOrder x ≠ stringsIndexByte ukwdOrder y :=
    fun e => hxy (ukwdIndex_inj x y hx e)
  simp only [List.mem_cons, List.mem_singleton, List.not_mem_nil, or_false] at hct
  rcases hct with e | e
  · subst e
    rw [← hck]
    exact ⟨_, (ukwdIndex_range y hy).1, (ukwdIndex_range y hy).2, fun e => hne e.symm,
      hp.1, hp.2⟩
  · subst e
    rw [← hck]
    exact ⟨_, (ukwdIndex_range x hx).1, (ukwdIndex_range x hx).2, hne, hp.2, hp.1⟩

theorem C3_setWiring_complete_witness :
    (mirrorReflector.setWiring
        (stringsJoin 32 [ascii "AB", ascii "CD", ascii "EF", ascii "GH", ascii "IK",
          ascii "LM", ascii "NO", ascii "PQ", ascii "RS", ascii "TU", ascii "VW",
          ascii "XZ"])).2 = none
      ∧ (mirrorReflector.setWiring
        (stringsJoin 32 [ascii "AB", ascii "CD", ascii "EF", ascii "GH", ascii "IK",
          ascii "LM", ascii "NO", ascii "PQ", ascii "RS", ascii "TU", ascii "VW",
          ascii "XZ"])).1.letterMap 1 = some 14 :=
  ⟨(C3_setWiring_complete mirrorReflector
      [ascii "AB", ascii "CD", ascii "EF", ascii "GH", ascii "IK", ascii "LM",
        ascii "NO", ascii "PQ", ascii "RS", ascii "TU", ascii "VW", ascii "XZ"]
      (by decide) (by decide) (by decide) (by decide)).1,
    (C3_setWiring_complete mirrorReflector
      [ascii "AB", ascii "CD", ascii "EF", ascii "GH", ascii "IK", ascii "LM",
        ascii "NO", ascii "PQ", ascii "RS", ascii "TU", ascii "VW", ascii "XZ"]
      (by decide) (by decide) (by decide) (by decide)).2.2.2.2.1⟩

/-- C4: `setWiring` is all-or-nothing. Whenever it returns an error, whatever
the cause, the state after the call is the state before it (`letterMap`,
`wheelPosition` and `model`), so `translate` gives the same output at every
index; no pair read before the failing one stays applied. -/
theorem C4_setWiring_all_or_nothing (r : reflector) (wiring : List Byte)
    (h : (r.setWiring wiring).2.isSome = true) :
    (r.setWiring wiring).1 = r
    ∧ (r.setWiring wiring).1.letterMap = r.letterMap
    ∧ (r.setWiring wiring).1.wheelPosition = r.wheelPosition
    ∧ (r.setWiring wiring).1.model = r.model
    ∧ ∀ i : Int, (r.setWiring wiring).1.translate i = r.translate i := by
  have hs : (r.setWiring wiring).1 = r := by
    unfold reflector.setWiring at h ⊢
    split
    · rfl
    · next h1 =>
      rw [if_neg h1] at h
      split
      · rfl
      · next h2 =>
        rw [if_neg h2] at h
        split
        · rfl
        · next m hm =>
          rw [hm] at h
          simp at h
  rw [hs]
  exact ⟨rfl, rfl, rfl, rfl, fun _ => rfl⟩

theorem C4_setWiring_all_or_nothing_witness :
    (mirrorReflector.setWiring (ascii "AB CD EF GH IK LM NO PQ RS TU VW XA")).2
        = some (.alreadyWired (ascii "XA") 65)
      ∧ (mirrorReflector.setWiring (ascii "AB CD EF GH IK LM NO PQ RS TU VW XA")).1
        = mirrorReflector :=
  ⟨by decide,
    (C4_setWiring_all_or_nothing mirrorReflector
      (ascii "AB CD EF GH IK LM NO PQ RS TU VW XA") (by decide)).1⟩

/-! ## The hard-wired pair -/

theorem wirePairs_append (pre post : List (List Byte)) :
    ∀ m : IntMap, wirePairs m (pre ++ post) =
      match wirePairs m pre with
      | .error e => .error e
      | .ok m1 => wirePairs m1 post := by
  induction pre with
  | nil => intro m; rfl
  | cons t rest ih =>
    intro m
    simp only [List.cons_append, wirePairs]
    cases wirePair m t with
    | error e => rfl
    | ok m1 => exact ih m1

/-- A pair accepted by `wirePair` holds neither J nor Y, and the positions of
J and Y stay wired to each other. -/
theorem wirePair_keeps_hardWired (m m1 : IntMap) (t : List Byte)
    (h1 : m 1 = some 14) (h14 : m 14 = some 1) (h : wirePair m t = .ok m1) :
    m1 1 = some 14 ∧ m1 14 = some 1 ∧ (74 : Byte) ∉ t ∧ (89 : Byte) ∉ t := by
  unfold wirePair at h
  split at h
  · next p0 p1 =>
    split at h
    · cases h
    · split at h
      · cases h
      · next l0 hl0 =>
        split at h
        · cases h
        · next l1 hl1 =>
          injection h with h
          subst h
          obtain ⟨e0, hp0, hm0⟩ := wireLetter_ok_inv m _ p0 l0 hl0
          obtain ⟨e1, hp1, hm1⟩ := wireLetter_ok_inv m _ p1 l1 hl1
          have a0 : l0 ≠ 1 := by
            intro e; rw [e, h1] at hm0; simp at hm0
          have b0 : l0 ≠ 14 := by
            intro e; rw [e, h14] at hm0; simp at hm0
          have a1 : l1 ≠ 1 := by
            intro e; rw [e, h1] at hm1; simp at hm1
          have b1 : l1 ≠ 14 := by
            intro e; rw [e, h14] at hm1; simp at hm1
          refine ⟨?_, ?_, ?_, ?_⟩
          · simp only [IntMap.set]
            rw [if_neg (fun e => a1 e.symm), if_neg (fun e => a0 e.symm)]
            exact h1
          · simp only [IntMap.set]
            rw [if_neg (fun e => b1 e.symm), if_neg (fun e => b0 e.symm)]
            exact h14
          · intro hmem
            simp only [List.mem_cons, List.mem_singleton, List.not_mem_nil, or_false] at hmem
            rcases hmem with e | e
            · rw [← e, ukwdIndex_J] at e0; exact a0 e0
            · rw [← e, ukwdIndex_J] at e1; exact a1 e1
          · intro hmem
            simp only [List.mem_cons, List.mem_singleton, List.not_mem_nil, or_false] at hmem
            rcases hmem with e | e
            · rw [← e, ukwdIndex_Y] at e0; exact b0 e0
            · rw [← e, ukwdIndex_Y] at e1; exact b1 e1
  · cases h

/-- The loop of `setWiring` accepts no list of pairs in which J or Y occurs. -/
theorem wirePairs_rejects_hardWired (tokens : List (List Byte)) :
    ∀ m m1 : IntMap, m 1 = some 14 → m 14 = some 1 → wirePairs m tokens = .ok m1 →
      ∀ t ∈ tokens, (74 : Byte) ∉ t ∧ (89 : Byte) ∉ t := by
  induction tokens with
  | nil => intro _ _ _ _ _ t ht; exact absurd ht (List.not_mem_nil _)
  | cons s rest ih =>
    intro m m1 h1 h14 h t ht
    simp only [wirePairs] at h
    cases hs : wirePair m s with
    | error e => rw [hs] at h; cases h
    | ok m2 =>
      rw [hs] at h
      obtain ⟨k1, k14, kJ, kY⟩ := wirePair_keeps_hardWired m m2 s h1 h14 hs
      rcases List.mem_cons.1 ht with e | ht
      · subst e; exact ⟨kJ, kY⟩
      · exact ih m2 m1 k1 k14 h t ht

theorem hardWiredMap_J : hardWiredMap 1 = some 14 := by
  rw [hardWiredMap_apply]; rfl

theorem hardWiredMap_Y : hardWiredMap 14 = some 1 := by
  rw [hardWiredMap_apply]; rfl

/-- C10, as stated, fails: the specification "JY" is rejected, but with the
incomplete-wiring error, not the hard-wired one. -/
theorem C10_hardWired_counterexample :
    mirrorReflector.model.IsRewirable = true
      ∧ (74 : Byte) ∈ ascii "JY"
      ∧ stringsSplit (ascii "JY") 32 = [ascii "JY"]
      ∧ (mirrorReflector.setWiring (ascii "JY")).2 = some (.incompleteWiring 12)
      ∧ (mirrorReflector.setWiring (ascii "JY")).2 ≠ some (.hardWired (ascii "JY")) := by
  decide

/-- C10, amended: on a rewirable reflector, every wiring specification in
which some pair holds J or Y is rejected by `setWiring`. The error is the
hard-wired one when the specification has exactly 12 tokens, the tokens before
the first one with J or Y are pairs of two letters 'A'..'Z' other than J and
Y, no letter twice, and that token is two different bytes of which the first
is J or Y, or the second is J or Y and the first is a letter 'A'..'Z' not used
by an earlier pair. -/
theorem C10_hardWired_error (r : reflector) (wiring : List Byte)
    (hr : r.model.IsRewirable = true) :
    ((∃ t ∈ stringsSplit wiring 32, (74 : Byte) ∈ t ∨ (89 : Byte) ∈ t) →
      (r.setWiring wiring).2.isSome = true)
    ∧ (∀ (pre post : List (List Byte)) (x y : Byte),
        stringsSplit wiring 32 = pre ++ [x, y] :: post →
        pre.length + 1 + post.length = 12 →
        (∀ t ∈ pre, t.length = 2) →
        pre.flatten.Nodup →
        (∀ c ∈ pre.flatten, (65 ≤ c.val ∧ c.val ≤ 90) ∧ c ≠ 74 ∧ c ≠ 89) →
        x ≠ y →
        (x = 74 ∨ x = 89
          ∨ ((y = 74 ∨ y = 89) ∧ (65 ≤ x.val ∧ x.val ≤ 90) ∧ x ∉ pre.flatten)) →
        (r.setWiring wiring).2 = some (.hardWired [x, y])) := by
  constructor
  · rintro ⟨t, ht, hJY⟩
    unfold reflector.setWiring
    rw [if_neg (by simp [hr])]
    split
    · rfl
    · cases hw : wirePairs hardWiredMap (stringsSplit wiring 32) with
      | error e => rfl
      | ok m1 =>
        have h := wirePairs_rejects_hardWired _ _ _ hardWiredMap_J hardWiredMap_Y hw t ht
        rcases hJY with h1 | h1
        · exact absurd h1 h.1
        · exact absurd h1 h.2
  · intro pre post x y hsplit hcount htwo hnd hletters hxy hcase
    have hmem : ∀ c ∈ pre.flatten, c ∈ ukwdOrder ∧ c ≠ 74 ∧ c ≠ 89 :=
      fun c hc => ⟨(mem_ukwdOrder c).2 (hletters c hc).1, (hletters c hc).2⟩
    obtain ⟨m1, hm1, _, hother⟩ := wirePairs_ok pre hardWiredMap htwo hnd
      (fun c hc => ⟨(hmem c hc).1,
        hardWiredMap_free c (hmem c hc).1 (hmem c hc).2.1 (hmem c hc).2.2⟩)
    have k1 : m1 1 = some 14 := by
      rw [hother 1 (fun c hc e =>
        (hmem c hc).2.1 (ukwdIndex_inj c 74 (hmem c hc).1 (by rw [← e, ukwdIndex_J]))),
        hardWiredMap_J]
    have k14 : m1 14 = some 1 := by
      rw [hother 14 (fun c hc e =>
        (hmem c hc).2.2 (ukwdIndex_inj c 89 (hmem c hc).1 (by rw [← e, ukwdIndex_Y]))),
        hardWiredMap_Y]
    have hJ : ∀ pair : List Byte, wireLetter m1 pair 74 = .error (.hardWired pair) := by
      intro pair
      unfold wireLetter
      rw [ukwdIndex_J, if_neg (by decide), k1]
      simp
    have hY : ∀ pair : List Byte, wireLetter m1 pair 89 = .error (.hardWired pair) := by
      intro pair
      unfold wireLetter
      rw [ukwdIndex_Y, if_neg (by decide), k14]
      simp
    have hpair : wirePair m1 [x, y] = .error (.hardWired [x, y]) := by
      simp only [wirePair]
      rw [if_neg hxy]
      rcases hcase with e | e | ⟨ey, hx, hxpre⟩
      · subst e; rw [hJ]
      · subst e; rw [hY]
      · by_cases e74 : x = 74
        · subst e74; rw [hJ]
        by_cases e89 : x = 89
        · subst e89; rw [hY]
        have hxin : x ∈ ukwdOrder := (mem_ukwdOrder x).2 hx
        have hfree : m1 (stringsIndexByte ukwdOrder x)
            = some (stringsIndexByte ukwdOrder x) := by
          rw [hother _ (fun c hc e => hxpre ((ukwdIndex_inj x c hxin e) ▸ hc))]
          exact hardWiredMap_free x hxin e74 e89
        rw [wireLetter_ok m1 _ x hxin hfree]
        rcases ey with e | e
        · subst e; rw [hJ]
        · subst e; rw [hY]
    have hlen : ((pre ++ [x, y] :: post).length : Int) = 12 := by
      rw [List.length_append, List.length_cons]
      omega
    unfold reflector.setWiring
    rw [if_neg (by simp [hr]), hsplit, expectedSize_eq, hlen, if_neg (by decide),
      wirePairs_append, hm1]
    simp only [wirePairs, hpair]

set_option maxRecDepth 100000 in
theorem C10_hardWired_error_witness :
    (mirrorReflector.setWiring (ascii "AB CD EF GH IK LM NO PQ RS TU VW XY")).2
      = some (.hardWired (ascii "XY")) :=
  (C10_hardWired_error mirrorReflector (ascii "AB CD EF GH IK LM NO PQ RS TU VW XY")
    (by decide)).2
    [ascii "AB", ascii "CD", ascii "EF", ascii "GH", ascii "IK", ascii "LM", ascii "NO",
      ascii "PQ", ascii "RS", ascii "TU", ascii "VW"] [] 88 89
    (by decide) (by decide) (by decide) (by decide) (by decide) (by decide) (by decide)

/-! ## Acceptance by `setWiring` -/

theorem setWiring_state_of_error (r : reflector) (wiring : List Byte)
    (h : (r.setWiring wiring).2.isSome = true) : (r.setWiring wiring).1 = r := by
  unfold reflector.setWiring at h ⊢
  split
  · rfl
  · next h1 =>
    rw [if_neg h1] at h
    split
    · rfl
    · next h2 =>
      rw [if_neg h2] at h
      split
      · rfl
      · next m hm =>
        rw [hm] at h
        simp at h

/-- What a pair accepted by `wirePair` looks like. -/
theorem wirePair_ok_inv (m m1 : IntMap) (t : List Byte) (h : wirePair m t = .ok m1) :
    ∃ x y : Byte, t = [x, y] ∧ x ≠ y ∧ x ∈ ukwdOrder ∧ y ∈ ukwdOrder
      ∧ (m (stringsIndexByte ukwdOrder x) = none
          ∨ m (stringsIndexByte ukwdOrder x) = some (stringsIndexByte ukwdOrder x))
      ∧ (m (stringsIndexByte ukwdOrder y) = none
          ∨ m (stringsIndexByte ukwdOrder y) = some (stringsIndexByte ukwdOrder y))
      ∧ m1 = (m.set (stringsIndexByte ukwdOrder x) (stringsIndexByte ukwdOrder y)).set
          (stringsIndexByte ukwdOrder y) (stringsIndexByte ukwdOrder x) := by
  unfold wirePair at h
  split at h
  · next p0 p1 =>
    split at h
    · cases h
    · next hne =>
      split at h
      · cases h
      · next l0 hl0 =>
        split at h
        · cases h
        · next l1 hl1 =>
          injection h with h
          obtain ⟨e0, hp0, hm0⟩ := wireLetter_ok_inv m _ p0 l0 hl0
          obtain ⟨e1, hp1, hm1⟩ := wireLetter_ok_inv m _ p1 l1 hl1
          subst e0 e1
          exact ⟨p0, p1, rfl, hne, hp0, hp1, hm0, hm1, h.symm⟩
  · cases h

/-- The pairs accepted by the loop of `setWiring` are pairs of two letters of
the physical order, no letter twice, none of them wired before. -/
theorem wirePairs_ok_inv (tokens : List (List Byte)) :
    ∀ m m1 : IntMap, wirePairs m tokens = .ok m1 →
      (∀ t ∈ tokens, t.length = 2) ∧ tokens.flatten.Nodup
      ∧ ∀ c ∈ tokens.flatten, c ∈ ukwdOrder
          ∧ (m (stringsIndexByte ukwdOrder c) = none
            ∨ m (stringsIndexByte ukwdOrder c) = some (stringsIndexByte ukwdOrder c)) := by
  induction tokens with
  | nil =>
    intro m m1 _
    exact ⟨fun t ht => absurd ht (List.not_mem_nil _), List.nodup_nil,
      fun c hc => absurd hc (List.not_mem_nil _)⟩
  | cons t rest ih =>
    intro m m1 h
    simp only [wirePairs] at h
    cases hs : wirePair m t with
    | error e => rw [hs] at h; cases h
    | ok m2 =>
      rw [hs] at h
      obtain ⟨x, y, rfl, hxy, hx, hy, hmx, hmy, hm2⟩ := wirePair_ok_inv m m2 t hs
      obtain ⟨hlen, hnd, hfree⟩ := ih m2 m1 h
      have hne : stringsIndexByte ukwdOrder x ≠ stringsIndexByte ukwdOrder y :=
        fun e => hxy (ukwdIndex_inj x y hx e)
      have hm2x : m2 (stringsIndexByte ukwdOrder x) = some (stringsIndexByte ukwdOrder y) := by
        rw [hm2]; unfold IntMap.set; rw [if_neg hne, if_pos rfl]
      have hm2y : m2 (stringsIndexByte ukwdOrder y) = some (stringsIndexByte ukwdOrder x) := by
        rw [hm2]; unfold IntMap.set; rw [if_pos rfl]
      have hxr : x ∉ rest.flatten := by
        intro hin
        rcases (hfree x hin).2 with e | e
        · rw [hm2x] at e; cases e
        · rw [hm2x] at e; injection e with e; exact hne e.symm
      have hyr : y ∉ rest.flatten := by
        intro hin
        rcases (hfree y hin).2 with e | e
        · rw [hm2y] at e; cases e
        · rw [hm2y] at e; injection e with e; exact hne e
      refine ⟨?_, ?_, ?_⟩
      · intro s hs
        rcases List.mem_cons.1 hs with e | hs
        · rw [e]; rfl
        · exact hlen s hs
      · rw [List.flatten_cons]
        simp only [List.cons_append, List.nil_append, List.nodup_cons, List.mem_cons, not_or]
        exact ⟨⟨hxy, hxr⟩, hyr, hnd⟩
      · intro c hc
        rw [List.flatten_cons] at hc
        simp only [List.cons_append, List.nil_append, List.mem_cons] at hc
        rcases hc with e | e | hc
        · subst e; exact ⟨hx, hmx⟩
        · subst e; exact ⟨hy, hmy⟩
        · refine ⟨(hfree c hc).1, ?_⟩
          have h1 := (hfree c hc).2
          have hcx : stringsIndexByte ukwdOrder c ≠ stringsIndexByte ukwdOrder x :=
            fun e => hxr ((ukwdIndex_inj c x (hfree c hc).1 e) ▸ hc)
          have hcy : stringsIndexByte ukwdOrder c ≠ stringsIndexByte ukwdOrder y :=
            fun e => hyr ((ukwdIndex_inj c y (hfree c hc).1 e) ▸ hc)
          rw [hm2] at h1
          unfold IntMap.set at h1
          rw [if_neg hcy, if_neg hcx] at h1
          exact h1

theorem length_flatten_of_pairs (tokens : List (List Byte))
    (h : ∀ t ∈ tokens, t.length = 2) : tokens.flatten.length = 2 * tokens.length := by
  induction tokens with
  | nil => rfl
  | cons t rest ih =>
    rw [List.flatten_cons, List.length_append, List.length_cons,
      ih (fun s hs => h s (List.mem_cons_of_mem _ hs)), h t (List.mem_cons_self _ _)]
    omega

/-- The result of `setWiring` on twelve pairs that hold each letter other than
J and Y once. -/
theorem setWiring_of_complete (r : reflector) (wiring : List Byte)
    (hr : r.model.IsRewirable = true)
    (hcount : (stringsSplit wiring 32).length = 12)
    (htwo : ∀ t ∈ stringsSplit wiring 32, t.length = 2)
    (hletters : (stringsSplit wiring 32).flatten.Perm (ascii "ABCDEFGHIKLMNOPQRSTUVWXZ")) :
    ∃ m1 : IntMap, r.setWiring wiring = ({ r with letterMap := m1 }, none)
      ∧ (∀ k : Int, 0 ≤ k → k < 26 → ∃ v : Int, 0 ≤ v ∧ v < 26 ∧ v ≠ k
          ∧ m1 k = some v ∧ m1 v = some k)
      ∧ (∀ k : Int, ¬ (0 ≤ k ∧ k < 26) → m1 k = none)
      ∧ m1 1 = some 14 ∧ m1 14 = some 1
      ∧ (∀ x y : Byte, [x, y] ∈ stringsSplit wiring 32 →
          m1 (stringsIndexByte ukwdOrder x) = some (stringsIndexByte ukwdOrder y)
          ∧ m1 (stringsIndexByte ukwdOrder y) = some (stringsIndexByte ukwdOrder x)) := by
  have hmem : ∀ c ∈ (stringsSplit wiring 32).flatten, c ∈ ukwdOrder ∧ c ≠ 74 ∧ c ≠ 89 := by
    intro c hc
    have h := (mem_freeLetters c).1 (hletters.mem_iff.1 hc)
    exact ⟨(mem_ukwdOrder c).2 h.1, h.2⟩
  have hnd : (stringsSplit wiring 32).flatten.Nodup := hletters.nodup_iff.2 (by decide)
  obtain ⟨m1, hm1, hpairs, hother⟩ :=
    wirePairs_ok (stringsSplit wiring 32) hardWiredMap htwo hnd
      (fun c hc => ⟨(hmem c hc).1,
        hardWiredMap_free c (hmem c hc).1 (hmem c hc).2.1 (hmem c hc).2.2⟩)
  have hset : r.setWiring wiring = ({ r with letterMap := m1 }, none) := by
    unfold reflector.setWiring
    rw [if_neg (by simp [hr]), expectedSize_eq, hcount, if_neg (by decide), hm1]
  have h1 : m1 1 = some 14 := by
    rw [hother 1 (fun c hc e =>
      (hmem c hc).2.1 (ukwdIndex_inj c 74 (hmem c hc).1 (by rw [← e, ukwdIndex_J]))),
      hardWiredMap_J]
  have h14 : m1 14 = some 1 := by
    rw [hother 14 (fun c hc e =>
      (hmem c hc).2.2 (ukwdIndex_inj c 89 (hmem c hc).1 (by rw [← e, ukwdIndex_Y]))),
      hardWiredMap_Y]
  refine ⟨m1, hset, ?_, ?_, h1, h14, hpairs⟩
  · intro k h0 hk
    obtain ⟨c, hc, hck⟩ := exists_ukwdIndex k h0 hk
    by_cases hJ : c = 74
    · have hk1 : k = 1 := by rw [← hck, hJ, ukwdIndex_J]
      subst hk1
      exact ⟨14, by decide, by decide, by decide, h1, h14⟩
    by_cases hY : c = 89
    · have hk14 : k = 14 := by rw [← hck, hY, ukwdIndex_Y]
      subst hk14
      exact ⟨1, by decide, by decide, by decide, h14, h1⟩
    have hcin : c ∈ (stringsSplit wiring 32).flatten :=
      hletters.mem_iff.2 ((mem_freeLetters c).2 ⟨(mem_ukwdOrder c).1 hc, hJ, hY⟩)
    obtain ⟨t, ht, hct⟩ := List.mem_flatten.1 hcin
    obtain ⟨x, y, rfl⟩ := List.length_eq_two.1 (htwo t ht)
    have hxy : x ≠ y := by
      have hn := (List.nodup_flatten.1 hnd).1 _ ht
      intro e
      subst e
      simp at hn
    have hx := (hmem x (List.mem_flatten.2 ⟨_, ht, by simp⟩)).1
    have hy := (hmem y (List.mem_flatten.2 ⟨_, ht, by simp⟩)).1
    have hp := hpairs x y ht
    have hne : stringsIndexByte ukwdOrder x ≠ stringsIndexByte ukwdOrder y :=
      fun e => hxy (ukwdIndex_inj x y hx e)
    simp only [List.mem_cons, List.mem_singleton, List.not_mem_nil, or_false] at hct
    rcases hct with e | e
    · subst e
      rw [← hck]
      exact ⟨_, (ukwdIndex_range y hy).1, (ukwdIndex_range y hy).2, fun e => hne e.symm,
        hp.1, hp.2⟩
    · subst e
      rw [← hck]
      exact ⟨_, (ukwdIndex_range x hx).1, (ukwdIndex_range x hx).2, hne, hp.2, hp.1⟩
  · intro k hk
    rw [hother k (fun c hc e => hk (e ▸ ukwdIndex_range c (hmem c hc).1)),
      hardWiredMap_apply]
    rw [if_neg (by omega), if_neg (by omega), if_neg hk]

/-- The specifications that `setWiring` accepts. -/
theorem setWiring_accept_iff (r : reflector) (wiring : List Byte) :
    (r.setWiring wiring).2 = none ↔
      (r.model.IsRewirable = true
        ∧ (stringsSplit wiring 32).length = 12
        ∧ (∀ t ∈ stringsSplit wiring 32, t.length = 2)
        ∧ (stringsSplit wiring 32).flatten.Perm (ascii "ABCDEFGHIKLMNOPQRSTUVWXZ")) := by
  constructor
  · intro h
    unfold reflector.setWiring at h
    by_cases hr : r.model.IsRewirable = false
    · rw [if_pos hr] at h; cases h
    rw [if_neg hr] at h
    by_cases hc : ((stringsSplit wiring 32).length : Int)
        ≠ wrapInt64 (Int.tdiv Alphabet.getSize 2 - 1)
    · rw [if_pos hc] at h; cases h
    rw [if_neg hc] at h
    have hcount : (stringsSplit wiring 32).length = 12 := by
      rw [expectedSize_eq] at hc
      have := not_not.1 hc
      omega
    cases hw : wirePairs hardWiredMap (stringsSplit wiring 32) with
    | error e => rw [hw] at h; cases h
    | ok m1 =>
      obtain ⟨htwo, hnd, hfree⟩ := wirePairs_ok_inv _ _ _ hw
      refine ⟨by simpa using hr, hcount, htwo, ?_⟩
      have hsub : (stringsSplit wiring 32).flatten ⊆ ascii "ABCDEFGHIKLMNOPQRSTUVWXZ" := by
        intro c hc
        obtain ⟨hcu, hcm⟩ := hfree c hc
        refine (mem_freeLetters c).2 ⟨(mem_ukwdOrder c).1 hcu, ?_, ?_⟩
        · intro e
          rw [e, ukwdIndex_J, hardWiredMap_J] at hcm
          rcases hcm with e | e <;> cases e
        · intro e
          rw [e, ukwdIndex_Y, hardWiredMap_Y] at hcm
          rcases hcm with e | e <;> cases e
      have hsp := List.subperm_of_subset hnd hsub
      refine hsp.perm_of_length_le ?_
      rw [length_flatten_of_pairs _ htwo, hcount]
      decide
  · rintro ⟨hr, hcount, htwo, hletters⟩
    obtain ⟨m1, hset, _⟩ := setWiring_of_complete r wiring hr hcount htwo hletters
    rw [hset]

/-- C11: on a rewirable reflector, a wiring specification that does not split
into exactly 12 tokens is rejected with the incomplete-wiring error, whatever
the tokens hold, and the state, so the prior `letterMap`, is kept. -/
theorem C11_incomplete_wiring (r : reflector) (wiring : List Byte)
    (hr : r.model.IsRewirable = true)
    (hcount : (stringsSplit wiring 32).length ≠ 12) :
    (r.setWiring wiring).2 = some (.incompleteWiring 12)
    ∧ (r.setWiring wiring).1.letterMap = r.letterMap
    ∧ (r.setWiring wiring).1 = r := by
  have h : r.setWiring wiring = (r, some (.incompleteWiring 12)) := by
    unfold reflector.setWiring
    rw [if_neg (by simp [hr]), expectedSize_eq, if_pos (by omega)]
  rw [h]
  exact ⟨rfl, rfl, rfl⟩

theorem C11_incomplete_wiring_witness :
    (mirrorReflector.setWiring (ascii "AB CD EF GH IK LM NO PQ RS TU VW")).2
        = some (.incompleteWiring 12)
      ∧ (mirrorReflector.setWiring
          (ascii "AB CD EF GH IK LM NO PQ RS TU VW XZ JY")).2
        = some (.incompleteWiring 12) :=
  ⟨(C11_incomplete_wiring mirrorReflector (ascii "AB CD EF GH IK LM NO PQ RS TU VW")
      (by decide) (by decide)).1,
    (C11_incomplete_wiring mirrorReflector
      (ascii "AB CD EF GH IK LM NO PQ RS TU VW XZ JY") (by decide) (by decide)).1⟩

/-- C13: on a movable reflector, `setWheelPosition` with a symbol `c` of the
alphabet returns no error and sets `wheelPosition` to the alphabet index of
`c`, whatever the offset before; `letterMap` and `model` are unchanged. -/
theorem C13_setWheelPosition_ok (r : reflector) (c : Byte)
    (hm : r.model.IsMovable = true) (hc : 65 ≤ c.val ∧ c.val ≤ 90) :
    (r.setWheelPosition c).2 = none
    ∧ (r.setWheelPosition c).1.wheelPosition = (Alphabet.charToInt c).1
    ∧ (r.setWheelPosition c).1.wheelPosition = (c.val : Int) - 65
    ∧ (r.setWheelPosition c).1.letterMap = r.letterMap
    ∧ (r.setWheelPosition c).1.model = r.model := by
  have hci := charToInt_Alphabet c
  rw [if_pos hc] at hci
  have h : r.setWheelPosition c = ({ r with wheelPosition := (c.val : Int) - 65 }, none) := by
    unfold reflector.setWheelPosition
    rw [if_neg (by simp [hm]), hci]
    simp
  rw [h, hci]
  exact ⟨rfl, rfl, rfl, rfl, rfl⟩

theorem C13_setWheelPosition_ok_witness :
    (mirrorReflector.setWheelPosition 90).2 = none
      ∧ (mirrorReflector.setWheelPosition 90).1.wheelPosition = 25 :=
  ⟨(C13_setWheelPosition_ok mirrorReflector 90 (by decide) (by decide)).1,
    (C13_setWheelPosition_ok mirrorReflector 90 (by decide) (by decide)).2.2.1⟩

set_option maxRecDepth 100000 in
/-- C17: the alphabet maps exactly 26 symbols one-to-one onto [0,26):
`getSize` is 26; `charToInt (intToChar i) = (i, found)` on [0,26); `charToInt`
finds a byte exactly when it is one of 'A'..'Z', the index then lies in [0,26)
and `intToChar` of it is the byte; any other byte gives the zero value and
not-found. -/
theorem C17_alphabet_bijection :
    Alphabet.getSize = 26
    ∧ (∀ i : Int, 0 ≤ i → i < 26 →
        ∃ c : Byte, Alphabet.intToChar i = some c ∧ Alphabet.charToInt c = (i, true))
    ∧ (∀ c : Byte,
        ((Alphabet.charToInt c).2 = true ↔ (65 ≤ c.val ∧ c.val ≤ 90))
        ∧ ((Alphabet.charToInt c).2 = true →
            0 ≤ (Alphabet.charToInt c).1 ∧ (Alphabet.charToInt c).1 < 26
            ∧ Alphabet.intToChar (Alphabet.charToInt c).1 = some c)
        ∧ ((Alphabet.charToInt c).2 = false → Alphabet.charToInt c = (0, false))) := by
  refine ⟨getSize_Alphabet, ?_, ?_⟩
  · intro i h0 h1
    refine ⟨Alphabet.letterMap.getD i.toNat 0, ?_, ?_⟩ <;> interval_cases i <;> decide
  · decide

/-- C19: a reflector maps no symbol to itself, at any rotation. If `letterMap`
holds every key of [0,26) with a value in [0,26) other than the key, then for
every wheel position and index in [0,26), `translate i` lies in [0,26) and
differs from `i`. -/
theorem C19_translate_no_fixed_point (r : reflector) (i : Int)
    (hmap : ∀ j : Int, 0 ≤ j → j < 26 →
      ∃ v : Int, r.letterMap j = some v ∧ 0 ≤ v ∧ v < 26 ∧ v ≠ j)
    (hp : 0 ≤ r.wheelPosition ∧ r.wheelPosition < 26)
    (hi : 0 ≤ i ∧ i < 26) :
    0 ≤ r.translate i ∧ r.translate i < 26 ∧ r.translate i ≠ i := by
  have hw : wrapInt64 (-r.wheelPosition) = -r.wheelPosition :=
    wrapInt64_eq_self (by unfold inInt64; omega)
  have h1 : inInt64 (i + r.wheelPosition) := by unfold inInt64; omega
  have hk := shift_mem_range i r.wheelPosition h1
  obtain ⟨v, hv, hv0, hv1, hne⟩ := hmap (shift i r.wheelPosition) hk.1 hk.2
  have h2 : inInt64 (v + -r.wheelPosition) := by unfold inInt64; omega
  have e : r.translate i = shift v (-r.wheelPosition) := by
    unfold reflector.translate
    rw [hw]
    simp [IntMap.get, hv]
  rw [e]
  have hr := shift_mem_range v (-r.wheelPosition) h2
  refine ⟨hr.1, hr.2, ?_⟩
  rw [shift_eq_emod _ _ h1] at hne
  rw [shift_eq_emod _ _ h2]
  omega

theorem C19_translate_no_fixed_point_witness :
    0 ≤ mirrorReflector.translate 7 ∧ mirrorReflector.translate 7 < 26
      ∧ mirrorReflector.translate 7 ≠ 7 :=
  C19_translate_no_fixed_point mirrorReflector 7
    (fun j h0 h1 => ⟨25 - j, by
      simp only [mirrorReflector]
      rw [if_pos ⟨h0, h1⟩], by omega, by omega, by omega⟩)
    (by decide) (by decide)

/-- C20: `setWiring` returns no error exactly when the model is rewirable and
splitting the input on the space character gives exactly 12 tokens, each of
exactly 2 bytes, whose 24 bytes are the 24 upper-case letters other than J and
Y, each once. The resulting `letterMap` is determined by the set of unordered
pairs: two accepted specifications with the same unordered pairs give the same
map, whatever the order of the pairs, the order of the letters in a pair, and
the reflector state before. -/
theorem C20_setWiring_acceptance (r : reflector) (wiring : List Byte) :
    ((r.setWiring wiring).2 = none ↔
      (r.model.IsRewirable = true
        ∧ (stringsSplit wiring 32).length = 12
        ∧ (∀ t ∈ stringsSplit wiring 32, t.length = 2)
        ∧ (stringsSplit wiring 32).flatten.Perm (ascii "ABCDEFGHIKLMNOPQRSTUVWXZ")))
    ∧ (∀ (r2 : reflector) (wiring2 : List Byte),
        (r.setWiring wiring).2 = none → (r2.setWiring wiring2).2 = none →
        (∀ x y : Byte,
          ([x, y] ∈ stringsSplit wiring 32 ∨ [y, x] ∈ stringsSplit wiring 32) ↔
          ([x, y] ∈ stringsSplit wiring2 32 ∨ [y, x] ∈ stringsSplit wiring2 32)) →
        (r.setWiring wiring).1.letterMap = (r2.setWiring wiring2).1.letterMap) := by
  refine ⟨setWiring_accept_iff r wiring, ?_⟩
  intro r2 wiring2 ha ha2 hsame
  obtain ⟨hr, hcount, htwo, hletters⟩ := (setWiring_accept_iff r wiring).1 ha
  obtain ⟨hr2, hcount2, htwo2, hletters2⟩ := (setWiring_accept_iff r2 wiring2).1 ha2
  obtain ⟨m1, hset, _, hout, h1, h14, hpairs⟩ :=
    setWiring_of_complete r wiring hr hcount htwo hletters
  obtain ⟨m2, hset2, _, hout2, k1, k14, hpairs2⟩ :=
    setWiring_of_complete r2 wiring2 hr2 hcount2 htwo2 hletters2
  rw [hset, hset2]
  show m1 = m2
  funext k
  by_cases hk : 0 ≤ k ∧ k < 26
  · obtain ⟨c, hc, hck⟩ := exists_ukwdIndex k hk.1 hk.2
    by_cases hJ : c = 74
    · have e : k = 1 := by rw [← hck, hJ, ukwdIndex_J]
      rw [e, h1, k1]
    by_cases hY : c = 89
    · have e : k = 14 := by rw [← hck, hY, ukwdIndex_Y]
      rw [e, h14, k14]
    have hcin : c ∈ (stringsSplit wiring 32).flatten :=
      hletters.mem_iff.2 ((mem_freeLetters c).2 ⟨(mem_ukwdOrder c).1 hc, hJ, hY⟩)
    obtain ⟨t, ht, hct⟩ := List.mem_flatten.1 hcin
    obtain ⟨x, y, rfl⟩ := List.length_eq_two.1 (htwo t ht)
    have hp := hpairs x y ht
    have hp2 : m2 (stringsIndexByte ukwdOrder x) = some (stringsIndexByte ukwdOrder y)
        ∧ m2 (stringsIndexByte ukwdOrder y) = some (stringsIndexByte ukwdOrder x) := by
      rcases (hsame x y).1 (Or.inl ht) with h | h
      · exact hpairs2 x y h
      · exact ⟨(hpairs2 y x h).2, (hpairs2 y x h).1⟩
    simp only [List.mem_cons, List.mem_singleton, List.not_mem_nil, or_false] at hct
    rcases hct with e | e
    · subst e
      rw [← hck, hp.1, hp2.1]
    · subst e
      rw [← hck, hp.2, hp2.2]
  · rw [hout k hk, hout2 k hk]

/-! ## Reachable states -/

/-- The letter map is a complete involution without fixed points on [0,26)
with no other key, and the wheel position lies in [0,26). -/
theorem reflector_invariant_call (r : reflector) (call : ReflectorCall)
    (hmap : ∀ k : Int, 0 ≤ k → k < 26 → ∃ v : Int, 0 ≤ v ∧ v < 26 ∧ v ≠ k
      ∧ r.letterMap k = some v ∧ r.letterMap v = some k)
    (hout : ∀ k : Int, ¬ (0 ≤ k ∧ k < 26) → r.letterMap k = none)
    (hp : 0 ≤ r.wheelPosition ∧ r.wheelPosition < 26) :
    (∀ k : Int, 0 ≤ k → k < 26 → ∃ v : Int, 0 ≤ v ∧ v < 26 ∧ v ≠ k
      ∧ (r.call call).letterMap k = some v ∧ (r.call call).letterMap v = some k)
    ∧ (∀ k : Int, ¬ (0 ≤ k ∧ k < 26) → (r.call call).letterMap k = none)
    ∧ (0 ≤ (r.call call).wheelPosition ∧ (r.call call).wheelPosition < 26) := by
  cases call with
  | setWheelPosition letter =>
    simp only [reflector.call]
    unfold reflector.setWheelPosition
    split
    · exact ⟨hmap, hout, hp⟩
    · split
      · exact ⟨hmap, hout, hp⟩
      · next hok =>
        refine ⟨hmap, hout, ?_⟩
        have hc := charToInt_Alphabet letter
        by_cases hl : 65 ≤ letter.val ∧ letter.val ≤ 90
        · rw [if_pos hl] at hc
          simp only [hc]
          omega
        · rw [if_neg hl] at hc
          rw [hc] at hok
          exact absurd rfl hok
  | setWiring wiring =>
    simp only [reflector.call]
    cases he : (r.setWiring wiring).2 with
    | some e =>
      rw [setWiring_state_of_error r wiring (by rw [he]; rfl)]
      exact ⟨hmap, hout, hp⟩
    | none =>
      obtain ⟨hr, hcount, htwo, hletters⟩ := (setWiring_accept_iff r wiring).1 he
      obtain ⟨m1, hset, hin1, hout1, _⟩ :=
        setWiring_of_complete r wiring hr hcount htwo hletters
      rw [hset]
      exact ⟨hin1, hout1, hp⟩

/-- C14: starting from `newReflector` on a wiring that is a rearrangement of
the alphabet and an involution without fixed points, after any finite sequence
of `setWheelPosition` and `setWiring` calls with arbitrary arguments, failed
or not, `letterMap` is a complete involution without fixed points on [0,26)
(and holds no other key) and `wheelPosition` lies in [0,26). -/
theorem C14_reachable_invariant (model : ReflectorModel)
    (hperm : model.getWiring.Perm Alphabet.letterMap)
    (hinv : ∀ i : Int, 0 ≤ i → i < 26 →
      wiringSubst model.getWiring (wiringSubst model.getWiring i) = i)
    (hfix : ∀ i : Int, 0 ≤ i → i < 26 → wiringSubst model.getWiring i ≠ i) :
    ∃ r0, newReflector model = .ok r0 ∧ ∀ calls : List ReflectorCall,
      (∀ k : Int, 0 ≤ k → k < 26 → ∃ v : Int, 0 ≤ v ∧ v < 26 ∧ v ≠ k
        ∧ (r0.run calls).letterMap k = some v ∧ (r0.run calls).letterMap v = some k)
      ∧ (∀ k : Int, ¬ (0 ≤ k ∧ k < 26) → (r0.run calls).letterMap k = none)
      ∧ (0 ≤ (r0.run calls).wheelPosition ∧ (r0.run calls).wheelPosition < 26) := by
  obtain ⟨r0, hr0, _, hw, hin, hout⟩ := newReflector_of_involution model hperm hinv
  refine ⟨r0, hr0, ?_⟩
  have hbase : (∀ k : Int, 0 ≤ k → k < 26 → ∃ v : Int, 0 ≤ v ∧ v < 26 ∧ v ≠ k
        ∧ r0.letterMap k = some v ∧ r0.letterMap v = some k)
      ∧ (∀ k : Int, ¬ (0 ≤ k ∧ k < 26) → r0.letterMap k = none)
      ∧ (0 ≤ r0.wheelPosition ∧ r0.wheelPosition < 26) := by
    refine ⟨?_, hout, by rw [hw]; decide⟩
    intro k h0 h1
    obtain ⟨e, v0, v1⟩ := hin k h0 h1
    refine ⟨_, v0, v1, hfix k h0 h1, e, ?_⟩
    have e2 := (hin _ v0 v1).1
    rw [hinv k h0 h1] at e2
    exact e2
  intro calls
  unfold reflector.run
  revert hbase
  generalize r0 = r
  induction calls generalizing r with
  | nil => intro h; exact h
  | cons call rest ih =>
    intro h
    rw [List.foldl_cons]
    exact ih (r.call call) (reflector_invariant_call r call h.1 h.2.1 h.2.2)

theorem C14_reachable_invariant_witness :
    ∃ r0, newReflector rewirableModel = .ok r0 ∧ ∀ calls : List ReflectorCall,
      (∀ k : Int, 0 ≤ k → k < 26 → ∃ v : Int, 0 ≤ v ∧ v < 26 ∧ v ≠ k
        ∧ (r0.run calls).letterMap k = some v ∧ (r0.run calls).letterMap v = some k)
      ∧ (∀ k : Int, ¬ (0 ≤ k ∧ k < 26) → (r0.run calls).letterMap k = none)
      ∧ (0 ≤ (r0.run calls).wheelPosition ∧ (r0.run calls).wheelPosition < 26) :=
  C14_reachable_invariant rewirableModel (by decide)
    (by intro i h0 h1; interval_cases i <;> decide)
    (by intro i h0 h1; interval_cases i <;> decide)

/-! ## Separators of a wiring specification -/

theorem length_stringsSplit (s : List Byte) (sep : Byte) :
    (stringsSplit s sep).length = s.count sep + 1
      ∧ (stringsSplit s sep).flatten.length + s.count sep = s.length := by
  induction s with
  | nil => exact ⟨rfl, rfl⟩
  | cons b rest ih =>
    simp only [stringsSplit]
    by_cases hb : b = sep
    · rw [if_pos hb, hb, List.count_cons_self, List.length_cons, List.flatten_cons,
        List.nil_append, List.length_cons]
      omega
    · rw [if_neg hb, List.count_cons_of_ne (fun e => hb e.symm), List.length_cons]
      cases hs : stringsSplit rest sep with
      | nil => exact absurd hs (stringsSplit_ne_nil rest sep)
      | cons piece pieces =>
        rw [hs] at ih
        simp only [List.length_cons, List.flatten_cons, List.length_append] at ih ⊢
        omega

/-- Separators that are not empty and take no more room than one byte each,
while holding one space each, are single spaces. -/
theorem separators_of_counts (rest : List (List Byte × List Byte))
    (h : ∀ p ∈ rest, p.1 ≠ [] ∧ p.2.length = 2 ∧ (32 : Byte) ∉ p.2) :
    3 * rest.length ≤ (rest.flatMap (fun p => p.1 ++ p.2)).length
    ∧ (rest.flatMap (fun p => p.1 ++ p.2)).count 32 + 2 * rest.length
        ≤ (rest.flatMap (fun p => p.1 ++ p.2)).length
    ∧ ((rest.flatMap (fun p => p.1 ++ p.2)).length ≤ 3 * rest.length →
        rest.length ≤ (rest.flatMap (fun p => p.1 ++ p.2)).count 32 →
        ∀ p ∈ rest, p.1 = [32]) := by
  induction rest with
  | nil =>
    exact ⟨Nat.le_refl _, Nat.le_refl _, fun _ _ p hp => absurd hp (List.not_mem_nil _)⟩
  | cons p rest ih =>
    obtain ⟨i1, i2, i3⟩ := ih (fun q hq => h q (List.mem_cons_of_mem _ hq))
    obtain ⟨hne, hlen, hno⟩ := h p (List.mem_cons_self _ _)
    have hpos : 1 ≤ p.1.length := by
      cases hp : p.1 with
      | nil => exact absurd hp hne
      | cons a l => simp
    have hcl : p.1.count 32 ≤ p.1.length := List.count_le_length _ _
    have hc2 : p.2.count 32 = 0 := List.count_eq_zero.2 hno
    simp only [List.flatMap_cons, List.length_append, List.count_append, List.length_cons,
      hlen, hc2]
    refine ⟨by omega, by omega, ?_⟩
    intro hle hge q hq
    rcases List.mem_cons.1 hq with e | hq
    · subst e
      have hl1 : q.1.length = 1 := by omega
      have hc1 : q.1.count 32 = 1 := by omega
      obtain ⟨a, ha⟩ := List.length_eq_one.1 hl1
      rw [ha] at hc1 ⊢
      by_cases e : a = 32
      · rw [e]
      · rw [List.count_cons_of_ne (fun e2 => e e2.symm)] at hc1
        simp at hc1
    · exact i3 (by omega) (by omega) q hq

theorem wiringSpec_single_spaces (first : List Byte) (rest : List (List Byte × List Byte))
    (h : ∀ p ∈ rest, p.1 = [32]) :
    wiringSpec first rest = stringsJoin 32 (first :: rest.map Prod.snd) := by
  unfold wiringSpec
  induction rest generalizing first with
  | nil => simp [stringsJoin]
  | cons p rest ih =>
    have hp := h p (List.mem_cons_self _ _)
    have e : stringsJoin 32 (first :: List.map Prod.snd (p :: rest))
        = first ++ 32 :: stringsJoin 32 (p.2 :: List.map Prod.snd rest) := rfl
    rw [e, ← ih p.2 (fun q hq => h q (List.mem_cons_of_mem _ hq)), List.flatMap_cons, hp]
    simp

/-- C12, as stated, fails: a specification whose first two pairs are separated
by two spaces, or by a tab, is rejected, while the same pairs separated by
single spaces are accepted. -/
theorem C12_whitespace_counterexample :
    (mirrorReflector.setWiring (ascii "AB CD EF GH IK LM NO PQ RS TU VW XZ")).2 = none
      ∧ (mirrorReflector.setWiring (ascii "AB  CD EF GH IK LM NO PQ RS TU VW XZ")).2
          = some (.incompleteWiring 12)
      ∧ (mirrorReflector.setWiring
          (ascii "AB" ++ 9 :: ascii "CD EF GH IK LM NO PQ RS TU VW XZ")).2
          = some (.incompleteWiring 12) := by
  decide

/-- C12, amended: `setWiring` reads its input as tokens separated by exactly
one space. For 12 two-letter pairs that hold each letter other than J and Y
once, written with arbitrary non-empty separators between them, `setWiring` on
a rewirable reflector accepts the specification exactly when every separator
is a single space; then the specification is the single-space form. With any
other separator (several spaces, a tab, a newline) it returns an error and
keeps the state. -/
theorem C12_single_space_separators (r : reflector) (first : List Byte)
    (rest : List (List Byte × List Byte))
    (hr : r.model.IsRewirable = true)
    (hcount : (first :: rest.map Prod.snd).length = 12)
    (htwo : ∀ t ∈ first :: rest.map Prod.snd, t.length = 2)
    (hletters : (first :: rest.map Prod.snd).flatten.Perm
      (ascii "ABCDEFGHIKLMNOPQRSTUVWXZ"))
    (hsep : ∀ p ∈ rest, p.1 ≠ []) :
    ((r.setWiring (wiringSpec first rest)).2 = none ↔ ∀ p ∈ rest, p.1 = [32])
    ∧ ((∀ p ∈ rest, p.1 = [32]) →
        wiringSpec first rest = stringsJoin 32 (first :: rest.map Prod.snd))
    ∧ (r.setWiring (stringsJoin 32 (first :: rest.map Prod.snd))).2 = none
    ∧ ((r.setWiring (wiringSpec first rest)).2 ≠ none →
        (r.setWiring (wiringSpec first rest)).1 = r) := by
  have hno : ∀ t ∈ first :: rest.map Prod.snd, (32 : Byte) ∉ t := by
    intro t ht h32
    have h := (mem_freeLetters 32).1
      (hletters.mem_iff.1 (List.mem_flatten.2 ⟨t, ht, h32⟩))
    exact absurd h.1.1 (by decide)
  have hsplit : stringsSplit (stringsJoin 32 (first :: rest.map Prod.snd)) 32
      = first :: rest.map Prod.snd :=
    stringsSplit_stringsJoin 32 _ (by simp) hno
  have hjoin : (r.setWiring (stringsJoin 32 (first :: rest.map Prod.snd))).2 = none := by
    rw [setWiring_accept_iff, hsplit]
    exact ⟨hr, hcount, htwo, hletters⟩
  refine ⟨⟨?_, ?_⟩, wiringSpec_single_spaces first rest, hjoin, ?_⟩
  · intro hacc
    obtain ⟨_, hc, ht, hl⟩ := (setWiring_accept_iff r _).1 hacc
    obtain ⟨e1, e2⟩ := length_stringsSplit (wiringSpec first rest) 32
    rw [hc] at e1
    rw [length_flatten_of_pairs _ ht, hc] at e2
    have hrest : ∀ p ∈ rest, p.1 ≠ [] ∧ p.2.length = 2 ∧ (32 : Byte) ∉ p.2 := by
      intro p hp
      have hm : p.2 ∈ first :: rest.map Prod.snd :=
        List.mem_cons_of_mem _ (List.mem_map_of_mem Prod.snd hp)
      exact ⟨hsep p hp, htwo _ hm, hno _ hm⟩
    obtain ⟨_, _, i3⟩ := separators_of_counts rest hrest
    have hf : first.length = 2 := htwo first (List.mem_cons_self _ _)
    have hfc : first.count 32 = 0 :=
      List.count_eq_zero.2 (hno first (List.mem_cons_self _ _))
    have hn : rest.length = 11 := by
      simp only [List.length_cons, List.length_map] at hcount
      omega
    unfold wiringSpec at e1 e2
    rw [List.count_append, hfc] at e1 e2
    rw [List.length_append, hf] at e2
    exact i3 (by omega) (by omega)
  · intro hall
    rw [wiringSpec_single_spaces first rest hall]
    exact hjoin
  · intro hne
    apply setWiring_state_of_error
    cases h : (r.setWiring (wiringSpec first rest)).2 with
    | none => exact absurd h hne
    | some e => rfl

set_option maxRecDepth 100000 in
theorem C12_single_space_separators_witness :
    ¬ (mirrorReflector.setWiring
        (wiringSpec (ascii "AB") [(ascii "  ", ascii "CD"), (ascii " ", ascii "EF"),
          (ascii " ", ascii "GH"), (ascii " ", ascii "IK"), (ascii " ", ascii "LM"),
          (ascii " ", ascii "NO"), (ascii " ", ascii "PQ"), (ascii " ", ascii "RS"),
          (ascii " ", ascii "TU"), (ascii " ", ascii "VW"), (ascii " ", ascii "XZ")])).2
      = none := by
  rw [(C12_single_space_separators mirrorReflector (ascii "AB")
    [(ascii "  ", ascii "CD"), (ascii " ", ascii "EF"),
      (ascii " ", ascii "GH"), (ascii " ", ascii "IK"), (ascii " ", ascii "LM"),
      (ascii " ", ascii "NO"), (ascii " ", ascii "PQ"), (ascii " ", ascii "RS"),
      (ascii " ", ascii "TU"), (ascii " ", ascii "VW"), (ascii " ", ascii "XZ")]
    (by decide) (by decide) (by decide) (by decide) (by decide)).1]
  decide

/-! ## `strings.ReplaceAll` on the patterns of `substitutions` -/

theorem replaceFrom_nomatch (old new : List Byte) (c : Byte) (rest : List Byte)
    (h : startsWith old (c :: rest) = false) :
    replaceFrom old new 0 (c :: rest) = c :: replaceFrom old new 0 rest := by
  simp [replaceFrom, h]

theorem insertBetween_cons_ne (a w b c : Byte) (rest : List Byte) (h : c ≠ a) :
    insertBetween a w b (c :: rest) = c :: insertBetween a w b rest := by
  cases rest with
  | nil => rfl
  | cons d rest2 =>
    rw [insertBetween, if_neg (fun e => h e.1)]

theorem insertBetween_head (a w b c : Byte) (rest : List Byte) :
    ∃ t, insertBetween a w b (c :: rest) = c :: t := by
  cases rest with
  | nil => exact ⟨[], rfl⟩
  | cons d rest2 =>
    rw [insertBetween]
    split
    · exact ⟨_, rfl⟩
    · exact ⟨_, rfl⟩

/-- Replacing `ab` by `awb` puts `w` between every `a` directly followed by
`b`. -/
theorem replaceAll_insert (a w b : Byte) (hab : a ≠ b) (s : List Byte) :
    stringsReplaceAll s [a, b] [a, w, b] = insertBetween a w b s := by
  unfold stringsReplaceAll
  rw [if_neg (by simp)]
  induction s with
  | nil => rfl
  | cons c rest ih =>
    cases rest with
    | nil => simp [replaceFrom, startsWith, insertBetween]
    | cons d rest2 =>
      by_cases hm : c = a ∧ d = b
      · obtain ⟨rfl, rfl⟩ := hm
        have h1 : startsWith [c, d] (d :: rest2) = false := by simp [startsWith, hab]
        rw [replaceFrom_nomatch _ _ _ _ h1, insertBetween_cons_ne _ _ _ _ _ (Ne.symm hab)]
          at ih
        rw [insertBetween, if_pos ⟨rfl, rfl⟩,
          insertBetween_cons_ne _ _ _ _ _ (Ne.symm hab)]
        simp only [replaceFrom, startsWith, decide_True, Bool.and_self, if_true,
          List.length_cons, List.length_nil]
        injection ih with _ ih
        simp [replaceFrom, ih]
      · have h1 : startsWith [a, b] (c :: d :: rest2) = false := by
          simp only [startsWith, Bool.and_true, Bool.and_eq_false_imp, decide_eq_true_eq,
            decide_eq_false_iff_not]
          intro e1 e2
          exact hm ⟨e1.symm, e2.symm⟩
        rw [replaceFrom_nomatch _ _ _ _ h1, ih, insertBetween, if_neg hm]

/-- Replacing `c` by `dd` doubles `d` for every `c`. -/
theorem replaceAll_double (c d : Byte) (s : List Byte) :
    stringsReplaceAll s [c] [d, d] = doubleFor c d s := by
  unfold stringsReplaceAll
  rw [if_neg (by simp)]
  induction s with
  | nil => rfl
  | cons x rest ih =>
    by_cases hx : x = c
    · subst hx
      simp [replaceFrom, startsWith, doubleFor, ih]
    · have h1 : startsWith [c] (x :: rest) = false := by
        simp [startsWith]
        exact fun e => hx e.symm
      rw [replaceFrom_nomatch _ _ _ _ h1, ih, doubleFor, if_neg hx]

theorem startsWith_one_insertBetween (a w b x : Byte) (s : List Byte) :
    startsWith [x] (insertBetween a w b s) = startsWith [x] s := by
  cases s with
  | nil => rfl
  | cons c rest =>
    obtain ⟨t, ht⟩ := insertBetween_head a w b c rest
    rw [ht]
    simp [startsWith]

/-- Taking `w` out of every `awb` undoes putting it between `a` and `b`, in a
string where `awb` does not occur. -/
theorem remove_insertBetween (a w b : Byte) (hab : a ≠ b) (hwa : w ≠ a) (s : List Byte)
    (h : occurs [a, w, b] s = false) :
    stringsReplaceAll (insertBetween a w b s) [a, w, b] [a, b] = s := by
  unfold stringsReplaceAll
  rw [if_neg (by simp)]
  induction s with
  | nil => rfl
  | cons c rest ih =>
    cases rest with
    | nil => simp [insertBetween, replaceFrom, startsWith]
    | cons d rest2 =>
      have hrest : occurs [a, w, b] (d :: rest2) = false := by
        rw [occurs, Bool.or_eq_false_iff] at h
        exact h.2
      have hhead : startsWith [a, w, b] (c :: d :: rest2) = false := by
        rw [occurs, Bool.or_eq_false_iff] at h
        exact h.1
      have ih := ih hrest
      by_cases hm : c = a ∧ d = b
      · obtain ⟨rfl, rfl⟩ := hm
        rw [insertBetween_cons_ne _ _ _ _ _ (Ne.symm hab)] at ih
        have h1 : startsWith [c, w, d] (d :: insertBetween c w d rest2) = false := by
          simp [startsWith, hab]
        rw [replaceFrom_nomatch _ _ _ _ h1] at ih
        injection ih with _ ih
        rw [insertBetween, if_pos ⟨rfl, rfl⟩,
          insertBetween_cons_ne _ _ _ _ _ (Ne.symm hab)]
        simp [replaceFrom, startsWith, ih]
      · rw [insertBetween, if_neg hm]
        have h1 : startsWith [a, w, b] (c :: insertBetween a w b (d :: rest2)) = false := by
          by_contra hcon
          rw [Bool.not_eq_false] at hcon
          obtain ⟨t, ht⟩ := insertBetween_head a w b d rest2
          rw [ht] at hcon
          simp only [startsWith, Bool.and_eq_true, decide_eq_true_eq] at hcon
          obtain ⟨e1, e2, e3⟩ := hcon
          subst e1 e2
          rw [insertBetween_cons_ne _ _ _ _ _ hwa] at ht
          injection ht with _ ht
          rw [← ht] at e3
          have e4 : startsWith [b] (insertBetween a w b rest2) = true := by
            simp [startsWith, e3]
          rw [startsWith_one_insertBetween] at e4
          cases rest2 with
          | nil => simp [startsWith] at e4
          | cons e rest3 =>
            simp only [startsWith, Bool.and_true, decide_eq_true_eq] at e4
            subst e4
            simp [startsWith] at hhead
        rw [replaceFrom_nomatch _ _ _ _ h1, ih]

/-- Putting `c` back for every `dd` undoes the doubling, in a string where
neither `dd` nor `dc` occurs. -/
theorem remove_doubleFor (c d : Byte) (hcd : c ≠ d) (s : List Byte)
    (h1 : occurs [d, d] s = false) (h2 : occurs [d, c] s = false) :
    stringsReplaceAll (doubleFor c d s) [d, d] [c] = s := by
  unfold stringsReplaceAll
  rw [if_neg (by simp)]
  induction s with
  | nil => rfl
  | cons x rest ih =>
    rw [occurs, Bool.or_eq_false_iff] at h1 h2
    have ih := ih h1.2 h2.2
    by_cases hx : x = c
    · subst hx
      rw [doubleFor, if_pos rfl]
      simp [replaceFrom, startsWith, ih]
    · rw [doubleFor, if_neg hx]
      have hn : startsWith [d, d] (x :: doubleFor c d rest) = false := by
        by_contra hcon
        rw [Bool.not_eq_false] at hcon
        cases rest with
        | nil => simp [startsWith, doubleFor] at hcon
        | cons y rest2 =>
          by_cases hy : y = c
          · subst hy
            rw [doubleFor, if_pos rfl] at hcon
            simp only [startsWith, Bool.and_eq_true, decide_eq_true_eq] at hcon
            have := h2.1
            simp [startsWith, ← hcon.1] at this
          · rw [doubleFor, if_neg hy] at hcon
            simp only [startsWith, Bool.and_eq_true, decide_eq_true_eq] at hcon
            have := h1.1
            simp [startsWith, ← hcon.1, ← hcon.2.1] at this
      rw [replaceFrom_nomatch _ _ _ _ hn, ih]

/-! ## Patterns kept out by the rules -/

theorem startsWith_two (x y c d : Byte) (t : List Byte) :
    startsWith [x, y] (c :: d :: t) = true ↔ x = c ∧ y = d := by
  simp [startsWith]

theorem startsWith_three (x y z c d e : Byte) (t : List Byte) :
    startsWith [x, y, z] (c :: d :: e :: t) = true ↔ x = c ∧ y = d ∧ z = e := by
  simp [startsWith, and_assoc]

theorem occurs_cons_false (p : List Byte) (c : Byte) (s : List Byte)
    (h1 : ¬ startsWith p (c :: s) = true) (h2 : occurs p s = false) :
    occurs p (c :: s) = false := by
  rw [occurs, h2, Bool.or_false]
  exact Bool.eq_false_iff.2 h1

theorem occurs_cons_inv (p : List Byte) (c : Byte) (s : List Byte)
    (h : occurs p (c :: s) = false) :
    ¬ startsWith p (c :: s) = true ∧ occurs p s = false := by
  rw [occurs, Bool.or_eq_false_iff] at h
  exact ⟨Bool.eq_false_iff.1 h.1, h.2⟩

theorem occurs_two_insertBetween (a w b x y : Byte)
    (h1 : ¬ (x = a ∧ y = w)) (h2 : ¬ (x = w ∧ y = b)) (s : List Byte)
    (hs : occurs [x, y] s = false) : occurs [x, y] (insertBetween a w b s) = false := by
  induction s with
  | nil => rfl
  | cons c rest ih =>
    cases rest with
    | nil => simp [insertBetween, occurs, startsWith]
    | cons d rest2 =>
      obtain ⟨hh, hr⟩ := occurs_cons_inv _ _ _ hs
      have ih := ih hr
      obtain ⟨t, ht⟩ := insertBetween_head a w b d rest2
      rw [startsWith_two] at hh
      rw [insertBetween]
      split
      · next hm =>
        rw [ht] at ih ⊢
        refine occurs_cons_false _ _ _ ?_ (occurs_cons_false _ _ _ ?_ ih)
        · rw [startsWith_two]
          exact fun e => h1 ⟨e.1.trans hm.1, e.2⟩
        · rw [startsWith_two]
          exact fun e => h2 ⟨e.1, e.2.trans hm.2⟩
      · rw [ht] at ih ⊢
        refine occurs_cons_false _ _ _ ?_ ih
        rw [startsWith_two]
        exact hh

theorem occurs_three_insertBetween (a w b x y z : Byte)
    (h1 : ¬ (x = w ∧ y = b)) (h2 : ¬ (x = a ∧ y = w ∧ z = b)) (h3 : ¬ (y = a ∧ z = w))
    (s : List Byte) (hs : occurs [x, y, z] s = false) :
    occurs [x, y, z] (insertBetween a w b s) = false := by
  induction s with
  | nil => rfl
  | cons c rest ih =>
    cases rest with
    | nil => simp [insertBetween, occurs, startsWith]
    | cons d rest2 =>
      obtain ⟨hh, hr⟩ := occurs_cons_inv _ _ _ hs
      have ih := ih hr
      rw [insertBetween]
      split
      · next hm =>
        obtain ⟨t, ht⟩ := insertBetween_head a w b d rest2
        rw [ht] at ih ⊢
        refine occurs_cons_false _ _ _ ?_ (occurs_cons_false _ _ _ ?_ ih)
        · rw [startsWith_three]
          exact fun e => h2 ⟨e.1.trans hm.1, e.2.1, e.2.2.trans hm.2⟩
        · intro e
          have e1 : x = w ∧ y = d := by
            cases t with
            | nil => simp [startsWith] at e
            | cons u t2 => exact ⟨((startsWith_three _ _ _ _ _ _ _).1 e).1,
                ((startsWith_three _ _ _ _ _ _ _).1 e).2.1⟩
          exact h1 ⟨e1.1, e1.2.trans hm.2⟩
      · next hm =>
        refine occurs_cons_false _ _ _ ?_ ih
        cases rest2 with
        | nil => simp [insertBetween, startsWith]
        | cons e rest3 =>
          rw [startsWith_three] at hh
          rw [insertBetween]
          split
          · next hm2 =>
            rw [startsWith_three]
            exact fun e1 => h3 ⟨e1.2.1.trans hm2.1, e1.2.2⟩
          · obtain ⟨t, ht⟩ := insertBetween_head a w b e rest3
            rw [ht, startsWith_three]
            exact hh

/-- Putting `w` between `a` and `b` brings in no pattern that is safe for
it. -/
theorem occurs_insertBetween (a w b : Byte) (p : List Byte)
    (hp : insertSafe a w b p = true) (s : List Byte) (hs : occurs p s = false) :
    occurs p (insertBetween a w b s) = false := by
  rcases p with _ | ⟨x, _ | ⟨y, _ | ⟨z, _ | ⟨u, p⟩⟩⟩⟩
  · simp [insertSafe] at hp
  · simp [insertSafe] at hp
  · apply occurs_two_insertBetween a w b x y _ _ s hs
    · rintro ⟨e1, e2⟩; simp [insertSafe, e1, e2] at hp
    · rintro ⟨e1, e2⟩; simp [insertSafe, e1, e2] at hp
  · apply occurs_three_insertBetween a w b x y z _ _ _ s hs
    · rintro ⟨e1, e2⟩; simp [insertSafe, e1, e2] at hp
    · rintro ⟨e1, e2, e3⟩; simp [insertSafe, e1, e2, e3] at hp
    · rintro ⟨e1, e2⟩; simp [insertSafe, e1, e2] at hp
  · simp [insertSafe] at hp

/-- After `w` is put between every `a` and `b`, no `ab` is left. -/
theorem occurs_pair_insertBetween (a w b : Byte) (hwa : w ≠ a) (hwb : w ≠ b)
    (s : List Byte) : occurs [a, b] (insertBetween a w b s) = false := by
  induction s with
  | nil => rfl
  | cons c rest ih =>
    cases rest with
    | nil => simp [insertBetween, occurs, startsWith]
    | cons d rest2 =>
      obtain ⟨t, ht⟩ := insertBetween_head a w b d rest2
      rw [insertBetween]
      split
      · rw [ht] at ih ⊢
        refine occurs_cons_false _ _ _ ?_ (occurs_cons_false _ _ _ ?_ ih)
        · rw [startsWith_two]
          exact fun e => hwb e.2.symm
        · rw [startsWith_two]
          exact fun e => hwa e.1.symm
      · next hm =>
        rw [ht] at ih ⊢
        refine occurs_cons_false _ _ _ ?_ ih
        rw [startsWith_two]
        exact fun e => hm ⟨e.1.symm, e.2.symm⟩

theorem occurs_two_doubleFor (c d x y : Byte) (hx : x ≠ d) (hy : y ≠ d) (s : List Byte)
    (hs : occurs [x, y] s = false) : occurs [x, y] (doubleFor c d s) = false := by
  induction s with
  | nil => rfl
  | cons u rest ih =>
    obtain ⟨hh, hr⟩ := occurs_cons_inv _ _ _ hs
    have ih := ih hr
    have hd : ∀ t : List Byte, ¬ startsWith [x, y] (d :: t) = true := by
      intro t e
      cases t with
      | nil => simp [startsWith] at e
      | cons v t2 => exact hx ((startsWith_two _ _ _ _ _).1 e).1
    rw [doubleFor]
    split
    · exact occurs_cons_false _ _ _ (hd _) (occurs_cons_false _ _ _ (hd _) ih)
    · refine occurs_cons_false _ _ _ ?_ ih
      cases rest with
      | nil => simp [doubleFor, startsWith]
      | cons v rest2 =>
        rw [startsWith_two] at hh
        rw [doubleFor]
        split
        · rw [startsWith_two]
          exact fun e => hy e.2
        · rw [startsWith_two]
          exact hh

theorem occurs_three_doubleFor (c d x y z : Byte) (hx : x ≠ d) (hz : z ≠ d)
    (s : List Byte) (hs : occurs [x, y, z] s = false) :
    occurs [x, y, z] (doubleFor c d s) = false := by
  induction s with
  | nil => rfl
  | cons u rest ih =>
    obtain ⟨hh, hr⟩ := occurs_cons_inv _ _ _ hs
    have ih := ih hr
    have hd : ∀ t : List Byte, ¬ startsWith [x, y, z] (d :: t) = true := by
      intro t e
      simp only [startsWith, Bool.and_eq_true, decide_eq_true_eq] at e
      exact hx e.1
    rw [doubleFor]
    split
    · exact occurs_cons_false _ _ _ (hd _) (occurs_cons_false _ _ _ (hd _) ih)
    · refine occurs_cons_false _ _ _ ?_ ih
      cases rest with
      | nil => simp [doubleFor, startsWith]
      | cons v rest2 =>
        rw [doubleFor]
        split
        · rw [startsWith_three]
          exact fun e => hz e.2.2
        · cases rest2 with
          | nil => simp [doubleFor, startsWith]
          | cons v2 rest3 =>
            rw [startsWith_three] at hh
            rw [doubleFor]
            split
            · rw [startsWith_three]
              exact fun e => hz e.2.2
            · rw [startsWith_three]
              exact hh

/-- Doubling `d` for `c` brings in no pattern that is safe for it. -/
theorem occurs_doubleFor (c d : Byte) (p : List Byte) (hp : doubleSafe d p = true)
    (s : List Byte) (hs : occurs p s = false) : occurs p (doubleFor c d s) = false := by
  rcases p with _ | ⟨x, _ | ⟨y, _ | ⟨z, _ | ⟨u, p⟩⟩⟩⟩
  · simp [doubleSafe] at hp
  · simp [doubleSafe] at hp
  · apply occurs_two_doubleFor c d x y _ _ s hs
    · intro e; simp [doubleSafe, e] at hp
    · intro e; simp [doubleSafe, e] at hp
  · apply occurs_three_doubleFor c d x y z _ _ s hs
    · intro e; simp [doubleSafe, e] at hp
    · intro e; simp [doubleSafe, e] at hp
  · simp [doubleSafe] at hp

/-! ## `Preprocess` and `Postprocess` as rules run forth and back -/

theorem substitutions_eq_rules : substitutions = rules.map Rule.sub := by decide

theorem Rule.forth_eq (r : Rule) (hr : r.ok = true) (s : List Byte) :
    stringsReplaceAll s r.sub.1 r.sub.2 = r.forth s := by
  cases r with
  | insert a w b =>
    simp only [Rule.ok, Bool.and_eq_true, Bool.not_eq_true', decide_eq_false_iff_not] at hr
    exact replaceAll_insert a w b hr.1.1 s
  | double c d => exact replaceAll_double c d s

theorem Rule.back_forth (r : Rule) (hr : r.ok = true) (s : List Byte)
    (h : ∀ p ∈ r.needs, occurs p s = false) : r.back (r.forth s) = s := by
  cases r with
  | insert a w b =>
    simp only [Rule.ok, Bool.and_eq_true, Bool.not_eq_true', decide_eq_false_iff_not] at hr
    exact remove_insertBetween a w b hr.1.1 hr.1.2 s (h _ (by simp [Rule.needs]))
  | double c d =>
    simp only [Rule.ok, Bool.not_eq_true', decide_eq_false_iff_not] at hr
    exact remove_doubleFor c d hr s (h _ (by simp [Rule.needs])) (h _ (by simp [Rule.needs]))

theorem Rule.occurs_forth (r : Rule) (hr : r.ok = true) (s : List Byte) (p : List Byte)
    (h : (r.safe p = true ∧ occurs p s = false) ∨ p ∈ r.clears) :
    occurs p (r.forth s) = false := by
  cases r with
  | insert a w b =>
    simp only [Rule.ok, Bool.and_eq_true, Bool.not_eq_true', decide_eq_false_iff_not] at hr
    rcases h with ⟨h1, h2⟩ | h
    · exact occurs_insertBetween a w b p h1 s h2
    · simp only [Rule.clears, List.mem_singleton] at h
      rw [h]
      exact occurs_pair_insertBetween a w b hr.1.2 hr.2 s
  | double c d =>
    rcases h with ⟨h1, h2⟩ | h
    · exact occurs_doubleFor c d p h1 s h2
    · simp [Rule.clears] at h

/-- Rules that are ready run back undo their run forth. -/
theorem back_forth_of_ready (rs : List Rule) :
    ∀ (absent : List (List Byte)) (s : List Byte), ready rs absent = true →
      (∀ p ∈ absent, occurs p s = false) →
      rs.reverse.foldl (fun t r => r.back t) (rs.foldl (fun t r => r.forth t) s) = s := by
  induction rs with
  | nil => intro _ s _ _; rfl
  | cons r rest ih =>
    intro absent s hready habs
    simp only [ready, Bool.and_eq_true, List.all_eq_true, decide_eq_true_eq] at hready
    obtain ⟨⟨hok, hneeds⟩, hrest⟩ := hready
    have hnext : ∀ p ∈ absent.filter r.safe ++ r.clears, occurs p (r.forth s) = false := by
      intro p hp
      apply Rule.occurs_forth r hok
      rcases List.mem_append.1 hp with h | h
      · rw [List.mem_filter] at h
        exact Or.inl ⟨h.2, habs p h.1⟩
      · exact Or.inr h
    rw [List.foldl_cons, List.reverse_cons, List.foldl_append, ih _ _ hrest hnext]
    simp only [List.foldl_cons, List.foldl_nil]
    exact Rule.back_forth r hok s (fun p hp => habs p (hneeds p hp))

theorem foldl_forth (rs : List Rule) (h : ∀ r ∈ rs, r.ok = true) :
    ∀ s : List Byte,
      (rs.map Rule.sub).foldl (fun text sub => stringsReplaceAll text sub.1 sub.2) s
        = rs.foldl (fun t r => r.forth t) s := by
  induction rs with
  | nil => intro s; rfl
  | cons r rest ih =>
    intro s
    rw [List.map_cons, List.foldl_cons, List.foldl_cons,
      Rule.forth_eq r (h r (List.mem_cons_self _ _)),
      ih (fun q hq => h q (List.mem_cons_of_mem _ hq))]

theorem foldl_back (rs : List Rule) (s : List Byte) :
    (rs.map Rule.sub).foldl (fun text sub => stringsReplaceAll text sub.2 sub.1) s
      = rs.foldl (fun t r => r.back t) s := by
  induction rs generalizing s with
  | nil => rfl
  | cons r rest ih =>
    rw [List.map_cons, List.foldl_cons, List.foldl_cons, ih]
    rfl

theorem Preprocess_eq (unicodeToUpper : Int → Int) (text : List Byte) :
    Preprocess unicodeToUpper text
      = rules.foldl (fun t r => r.forth t) (stringsToUpper unicodeToUpper text) := by
  unfold Preprocess
  rw [substitutions_eq_rules, foldl_forth rules (by decide)]

theorem Postprocess_eq (text : List Byte) :
    Postprocess text = rules.reverse.foldl (fun t r => r.back t) text := by
  unfold Postprocess
  rw [substitutions_eq_rules, ← List.map_reverse, foldl_back]

theorem stringsToUpper_ascii (unicodeToUpper : Int → Int) (text : List Byte)
    (h : ∀ c ∈ text, c.val < 128) :
    stringsToUpper unicodeToUpper text
      = text.map (fun c => if 97 ≤ c.val ∧ c.val ≤ 122 then Fin.ofNat (c.val - 32) else c) := by
  unfold stringsToUpper
  rw [if_pos]
  rw [List.all_eq_true]
  intro c hc
  exact decide_eq_true (h c hc)

theorem stringsToUpper_upper (unicodeToUpper : Int → Int) (text : List Byte)
    (h : ∀ c ∈ text, c.val < 97) : stringsToUpper unicodeToUpper text = text := by
  rw [stringsToUpper_ascii _ _ (fun c hc => by have := h c hc; omega)]
  conv_rhs => rw [← List.map_id text]
  apply List.map_congr_left
  intro c hc
  have := h c hc
  rw [if_neg (by omega)]
  rfl

theorem Preprocess_ascii (f g : Int → Int) (text : List Byte)
    (h : ∀ c ∈ text, c.val < 128) : Preprocess f text = Preprocess g text := by
  unfold Preprocess
  rw [stringsToUpper_ascii f text h, stringsToUpper_ascii g text h]

/-- C15, as stated, fails: the upper-case text "QQ" is left as it is by
`Preprocess` and turned into a single space by `Postprocess`. -/
theorem C15_roundtrip_counterexample :
    Preprocess (fun r => r) (ascii "QQ") = ascii "QQ"
      ∧ Postprocess (Preprocess (fun r => r) (ascii "QQ")) = ascii " "
      ∧ Postprocess (Preprocess (fun r => r) (ascii "QQ")) ≠ ascii "QQ" := by
  decide

/-- C15, amended: for every upper-case text made of the letters A-Z and the
punctuation marks space, comma, period and hyphen in which none of the twelve
replacement strings of `substitutions` occurs (QW+space, space+WQ, QQ, XW+comma,
comma+WX, XX, VW+period, period+WV, VV, YQ+hyphen, hyphen+QY, YY),
`Postprocess (Preprocess text) = text`. -/
theorem C15_roundtrip (unicodeToUpper : Int → Int) (text : List Byte)
    (hchars : ∀ c ∈ text,
      (65 ≤ c.val ∧ c.val ≤ 90) ∨ c = 32 ∨ c = 44 ∨ c = 46 ∨ c = 45)
    (hfree : ∀ sub ∈ substitutions, occurs sub.2 text = false) :
    Postprocess (Preprocess unicodeToUpper text) = text := by
  have hup : stringsToUpper unicodeToUpper text = text := by
    apply stringsToUpper_upper
    intro c hc
    rcases hchars c hc with h | h | h | h | h
    · omega
    all_goals rw [h]; decide
  rw [Preprocess_eq, hup, Postprocess_eq]
  apply back_forth_of_ready rules (substitutions.map Prod.snd) text (by decide)
  intro p hp
  obtain ⟨sub, hsub, rfl⟩ := List.mem_map.1 hp
  exact hfree sub hsub

set_option maxRecDepth 100000 in
theorem C15_roundtrip_witness :
    Postprocess (Preprocess (fun r => r) (ascii "HELLO, WORLD. Y-Y X,X Q Q"))
      = ascii "HELLO, WORLD. Y-Y X,X Q Q" :=
  C15_roundtrip (fun r => r) (ascii "HELLO, WORLD. Y-Y X,X Q Q") (by decide) (by decide)

set_option maxRecDepth 100000 in
/-- C16: `Preprocess " ,.-"` is "QQXXVVYY" and `Postprocess` gives " ,.-" back;
`Preprocess "Q "` follows the rule "Q " to "QW " and is "QWQQ", not "QQQ";
`Preprocess " Q"` follows the rule " Q" to " WQ" and is "QQWQ", not "QQQ";
`Postprocess` gives "Q " and " Q" back from them. -/
theorem C16_roundtrip_scenario (unicodeToUpper : Int → Int) :
    Preprocess unicodeToUpper (ascii " ,.-") = ascii "QQXXVVYY"
    ∧ Postprocess (Preprocess unicodeToUpper (ascii " ,.-")) = ascii " ,.-"
    ∧ Preprocess unicodeToUpper (ascii "Q ") = ascii "QWQQ"
    ∧ Preprocess unicodeToUpper (ascii "Q ") ≠ ascii "QQQ"
    ∧ Preprocess unicodeToUpper (ascii " Q") = ascii "QQWQ"
    ∧ Preprocess unicodeToUpper (ascii " Q") ≠ ascii "QQQ"
    ∧ Postprocess (Preprocess unicodeToUpper (ascii "Q ")) = ascii "Q "
    ∧ Postprocess (Preprocess unicodeToUpper (ascii " Q")) = ascii " Q" := by
  rw [Preprocess_ascii unicodeToUpper (fun r => r) (ascii " ,.-") (by decide),
    Preprocess_ascii unicodeToUpper (fun r => r) (ascii "Q ") (by decide),
    Preprocess_ascii unicodeToUpper (fun r => r) (ascii " Q") (by decide)]
  decide

/-! ## The bytes of a preprocessed text -/

theorem mem_insertBetween (a w b x : Byte) (s : List Byte)
    (h : x ∈ insertBetween a w b s) : x ∈ s ∨ x = w := by
  induction s with
  | nil => simp [insertBetween] at h
  | cons c rest ih =>
    cases rest with
    | nil => left; simpa [insertBetween] using h
    | cons d rest2 =>
      rw [insertBetween] at h
      split at h
      · rcases List.mem_cons.1 h with e | h
        · left; rw [e]; exact List.mem_cons_self _ _
        · rcases List.mem_cons.1 h with e | h
          · right; exact e
          · rcases ih h with h | h
            · left; exact List.mem_cons_of_mem _ h
            · right; exact h
      · rcases List.mem_cons.1 h with e | h
        · left; rw [e]; exact List.mem_cons_self _ _
        · rcases ih h with h | h
          · left; exact List.mem_cons_of_mem _ h
          · right; exact h

theorem mem_doubleFor (c d x : Byte) (s : List Byte) (h : x ∈ doubleFor c d s) :
    (x ∈ s ∧ x ≠ c) ∨ x = d := by
  induction s with
  | nil => simp [doubleFor] at h
  | cons u rest ih =>
    rw [doubleFor] at h
    split at h
    · rcases List.mem_cons.1 h with e | h
      · right; exact e
      · rcases List.mem_cons.1 h with e | h
        · right; exact e
        · rcases ih h with h | h
          · left; exact ⟨List.mem_cons_of_mem _ h.1, h.2⟩
          · right; exact h
    · next hu =>
      rcases List.mem_cons.1 h with e | h
      · left; rw [e]; exact ⟨List.mem_cons_self _ _, hu⟩
      · rcases ih h with h | h
        · left; exact ⟨List.mem_cons_of_mem _ h.1, h.2⟩
        · right; exact h

theorem Rule.mem_forth (r : Rule) (allowed s : List Byte) (h : ∀ x ∈ s, x ∈ allowed) :
    ∀ x ∈ r.forth s, x ∈ r.bytesAfter allowed := by
  intro x hx
  cases r with
  | insert a w b =>
    rcases mem_insertBetween a w b x s hx with h1 | h1
    · exact List.mem_cons_of_mem _ (h x h1)
    · rw [h1]; exact List.mem_cons_self _ _
  | double c d =>
    rcases mem_doubleFor c d x s hx with h1 | h1
    · apply List.mem_cons_of_mem
      rw [List.mem_filter]
      exact ⟨h x h1.1, by simpa using h1.2⟩
    · rw [h1]; exact List.mem_cons_self _ _

theorem mem_foldl_forth (rs : List Rule) :
    ∀ (allowed s : List Byte), (∀ x ∈ s, x ∈ allowed) →
      ∀ x ∈ rs.foldl (fun t r => r.forth t) s,
        x ∈ rs.foldl (fun al r => r.bytesAfter al) allowed := by
  induction rs with
  | nil => intro allowed s h; exact h
  | cons r rest ih =>
    intro allowed s h
    rw [List.foldl_cons, List.foldl_cons]
    exact ih _ _ (Rule.mem_forth r allowed s h)

set_option maxRecDepth 100000 in
/-- C18: `Preprocess` leaves no punctuation for the cipher. For every text of
ASCII letters of either case and the punctuation marks space, comma, period
and hyphen, every byte of `Preprocess text` is an upper-case letter 'A'..'Z',
found by `charToInt`; it is no space, comma, period or hyphen. -/
theorem C18_preprocess_letters (unicodeToUpper : Int → Int) (text : List Byte)
    (hchars : ∀ c ∈ text,
      (65 ≤ c.val ∧ c.val ≤ 90) ∨ (97 ≤ c.val ∧ c.val ≤ 122)
        ∨ c = 32 ∨ c = 44 ∨ c = 46 ∨ c = 45) :
    ∀ x ∈ Preprocess unicodeToUpper text,
      (65 ≤ x.val ∧ x.val ≤ 90) ∧ (Alphabet.charToInt x).2 = true
        ∧ x ≠ 32 ∧ x ≠ 44 ∧ x ≠ 46 ∧ x ≠ 45 := by
  have hascii : ∀ c ∈ text, c.val < 128 := by
    intro c hc
    rcases hchars c hc with h | h | h | h | h | h
    · omega
    · omega
    all_goals rw [h]; decide
  have hup : ∀ x ∈ stringsToUpper unicodeToUpper text,
      x ∈ Alphabet.letterMap ++ [32, 44, 46, 45] := by
    rw [stringsToUpper_ascii _ _ hascii]
    intro x hx
    obtain ⟨c, hc, rfl⟩ := List.mem_map.1 hx
    rw [List.mem_append]
    rcases hchars c hc with h | h | h | h | h | h
    · left
      rw [if_neg (by omega)]
      exact (mem_Alphabet c).2 h
    · left
      rw [if_pos h]
      apply (mem_Alphabet _).2
      have hc := c.isLt
      simp only [Fin.ofNat]
      omega
    all_goals right; rw [h]; decide
  have hall : ∀ x ∈ rules.foldl (fun al r => r.bytesAfter al)
      (Alphabet.letterMap ++ [32, 44, 46, 45]),
      (65 ≤ x.val ∧ x.val ≤ 90) ∧ (Alphabet.charToInt x).2 = true
        ∧ x ≠ 32 ∧ x ≠ 44 ∧ x ≠ 46 ∧ x ≠ 45 := by
    decide
  intro x hx
  rw [Preprocess_eq] at hx
  exact hall x (mem_foldl_forth rules _ _ hup x hx)

set_option maxRecDepth 100000 in
theorem C18_preprocess_letters_witness :
    (Preprocess (fun r => r) (ascii "Hello, World. a-b")).all
      (fun x => decide (65 ≤ x.val ∧ x.val ≤ 90)) = true :=
  List.all_eq_true.2 (fun x hx => decide_eq_true
    (C18_preprocess_letters (fun r => r) (ascii "Hello, World. a-b") (by decide) x hx).1)

end Enigma
